import Mathlib

/-!
Verification of the Same Game board/cluster engine (`same.js`).

The board is an array `[x][y]` of cells, `[0][0]` top-left.  Each cell holds a
color (`null` for an emptied cell, modelled as `none`; a palette index
otherwise) and the `cluster` grouping computed by `updateClusters`.  The
original JavaScript groups cells by giving every member a reference to one
shared array; we model the observable result of that pass by writing the final
member list back into every member cell, and replace the shared-array
"already in a non-empty cluster" test by a visited list (a cell's cluster is
non-empty exactly when the cell has been added to some cluster).

All loops of the source are translated as structural recursions; the DFS
worklist loop of `updateClusters` takes an explicit iteration budget (`gas`)
that is an upper bound on the number of loop iterations, and is proved
sufficient (`floodFill_spec` below), so every definition evaluates by `decide`.
-/

/-- A grid position `(x, y)`; the source pushes coordinates such as `x - 1`
onto the DFS worklist, so coordinates are integers. -/
abbrev Pos := Int × Int

/-- One board cell: `color = none` models the JavaScript `null` color of an
emptied cell, `some i` the palette entry `color_vocab[i]`; `cluster` is the
grouping written by `updateClusters`. -/
structure Cell where
  color : Option Nat
  cluster : List Pos
deriving DecidableEq, Repr

/-- The fresh empty cell `{ color: null, cluster: [] }` from `handleClick`. -/
def emptyCell : Cell := { color := none, cluster := [] }

/-- The board `[x][y]`: a list of `width` columns, each of `height` cells,
row `0` at the top. -/
abbrev Board := List (List Cell)

/-- JavaScript `this.board[x][y]`: `none` when either index is out of range
(JS yields `undefined`). -/
def getCell? (b : Board) (x y : Int) : Option Cell :=
  if 0 ≤ x ∧ 0 ≤ y then (b[x.toNat]?).bind (fun col => col[y.toNat]?) else none

/-- The color stored at a position (`none` also when the position is outside
the board; in-range cells always exist on the well-formed boards this game
produces). -/
def colorAt (b : Board) (p : Pos) : Option Nat :=
  (getCell? b p.1 p.2).bind Cell.color

/-- The cluster list stored at a position (`[]` when outside the board). -/
def clusterAt (b : Board) (x y : Int) : List Pos :=
  ((getCell? b x y).map Cell.cluster).getD []

/-- All board positions in the scan order of `updateClusters`
(`y` outer, `x` inner). -/
def gridPositions (width height : Nat) : List Pos :=
  ((List.range height).map Int.ofNat).flatMap (fun y =>
    ((List.range width).map Int.ofNat).map (fun x => (x, y)))

/-- Number of in-grid positions not yet assigned to a cluster; the DFS
termination measure is built from it. -/
def unvisitedCount (width height : Nat) (visited : List Pos) : Nat :=
  ((gridPositions width height).filter (fun q => decide (q ∉ visited))).length

/-- The DFS worklist loop of `updateClusters` (source lines 129-145).  `c` is
the color of the scan-origin cell, `visited` the cells already in some
non-empty cluster (the shared-array test of the source), `members` the cluster
being collected, `toVisit` the explicit stack (`push`/`pop` work at the list
head).  The source skips a popped position when
`oy < 0 || oy === height || ox < 0 || ox === width`; every worklist entry is a
neighbor of an in-bounds cell, so `oy` never exceeds `height` (nor `ox`
`width`) and the equality tests are equivalent to `≤`, which we use so that
the loop is total.  `gas` bounds the number of iterations; `floodFill` is
always called with enough gas (see `floodFill_spec`), so the `gas = 0` row is
dead code. -/
def floodFill (width height : Nat) (colorA : Pos → Option Nat) (c : Option Nat) :
    Nat → List Pos → List Pos → List Pos → List Pos × List Pos
  | 0, visited, members, _ => (visited, members)
  | gas + 1, visited, members, toVisit =>
    match toVisit with
    | [] => (visited, members)
    | (ox, oy) :: rest =>
      if oy < 0 ∨ (height : Int) ≤ oy ∨ ox < 0 ∨ (width : Int) ≤ ox then
        floodFill width height colorA c gas visited members rest
      else if (ox, oy) ∈ visited then
        floodFill width height colorA c gas visited members rest
      else if colorA (ox, oy) = c then
        floodFill width height colorA c gas ((ox, oy) :: visited) (members ++ [(ox, oy)])
          ((ox, oy + 1) :: (ox, oy - 1) :: (ox + 1, oy) :: (ox - 1, oy) :: rest)
      else
        floodFill width height colorA c gas visited members rest

/-- The outer scan of `updateClusters` (source lines 116-147): visit every
position in scan order; skip positions already assigned to a cluster; skip
empty cells (their cluster stays `[]`); otherwise flood-fill the cluster of
the cell and record it. -/
def clustersScan (width height : Nat) (colorA : Pos → Option Nat) :
    List Pos → List Pos → List (List Pos) → List (List Pos)
  | [], _, acc => acc
  | p :: rest, visited, acc =>
    if p ∈ visited then
      clustersScan width height colorA rest visited acc
    else
      match colorA p with
      | none => clustersScan width height colorA rest visited acc
      | some c =>
        let r := floodFill width height colorA (some c)
          (5 * unvisitedCount width height visited + 1) visited [] [p]
        clustersScan width height colorA rest r.1 (r.2 :: acc)

/-- All clusters of a board, as computed by the scan of `updateClusters`. -/
def computeClusters (width height : Nat) (colorA : Pos → Option Nat) : List (List Pos) :=
  clustersScan width height colorA (gridPositions width height) [] []

/-- The cluster containing `p` (the list every member cell ends up sharing);
`[]` when no cluster contains `p` — exactly the empty cells. -/
def lookupCluster (clusters : List (List Pos)) (p : Pos) : List Pos :=
  match clusters.find? (fun m => decide (p ∈ m)) with
  | some m => m
  | none => []

/-- The game-session state (the fields of the `SameGame` object that the
engine reads and writes; DOM handles are presentation and excluded). -/
structure GameState where
  ncolors : Nat
  width : Nat
  height : Nat
  board : Board
  hoverCluster : List Pos
  score : Int
  numCells : Int
  scoreLeft : Int
  scoreTotal : Int
deriving DecidableEq, Repr

/-- `updateClusters` (source lines 106-148): recompute every cell's `cluster`
field from the colors; colors are unchanged.  On the (always well-formed)
boards of this game the rebuilt `width × height` grid coincides with the
mutated-in-place board of the source. -/
def updateClusters (s : GameState) : GameState :=
  let cs := computeClusters s.width s.height (colorAt s.board)
  { s with board :=
      ((List.range s.width).map Int.ofNat).map (fun x =>
        ((List.range s.height).map Int.ofNat).map (fun y =>
          { color := colorAt s.board (x, y),
            cluster := lookupCluster cs (x, y) })) }

/-- `checkWin` (source lines 204-211): false as soon as any cell's stored
cluster is non-empty, true otherwise. -/
def checkWin (s : GameState) : Bool :=
  (List.range s.height).all fun y => (List.range s.width).all fun x =>
    ((getCell? s.board x y).map (fun cell => cell.cluster.isEmpty)).getD true

/-- Failures of the engine.  `OutOfBounds` is the error kind the design names
for out-of-range coordinates; the source has no bounds check, so an
out-of-range access reads a property of `undefined`, which raises a
JavaScript `TypeError` — modelled by `.TypeError`. -/
inductive GameError where
  | OutOfBounds
  | TypeError
deriving DecidableEq, Repr

instance {ε α : Type} [DecidableEq ε] [DecidableEq α] : DecidableEq (Except ε α)
  | .error e, .error f =>
    if h : e = f then .isTrue (by rw [h]) else .isFalse (by intro hc; cases hc; exact h rfl)
  | .error _, .ok _ => .isFalse (by intro hc; cases hc)
  | .ok _, .error _ => .isFalse (by intro hc; cases hc)
  | .ok a, .ok b =>
    if h : a = b then .isTrue (by rw [h]) else .isFalse (by intro hc; cases hc; exact h rfl)

/-- `handleHover` (source lines 156-168): read the cluster of the cell under
the pointer; keep it as `hoverCluster` when it has at least two cells,
otherwise reset `hoverCluster` to `[]`.  The returned number is the tile
count passed to `updateHoverScore` (the preview size; `0` when not over a
removable cluster).  An out-of-range coordinate makes `this.board[ox][oy]`
`undefined` and the `.cluster` read raises a `TypeError`. -/
def handleHover (s : GameState) (ox oy : Int) : Except GameError (GameState × Nat) :=
  match getCell? s.board ox oy with
  | none => .error .TypeError
  | some cell =>
    if cell.cluster.length > 1 then
      .ok ({ s with hoverCluster := cell.cluster }, cell.cluster.length)
    else
      .ok ({ s with hoverCluster := [] }, 0)

/-- `updateScore` (source lines 192-200). -/
def updateScore (s : GameState) (ntiles : Nat) : GameState :=
  let score := s.score + (ntiles : Int) * (ntiles : Int)
  let scoreLeft := max ((50 - s.numCells) * 100) 0
  { s with score := score, scoreLeft := scoreLeft, scoreTotal := score + scoreLeft }

/-- `updateGame` (source lines 47-56): add the removed cluster's score,
forget the hover cluster, recompute all clusters.  (`handleOut`, `draw` and
the `alert` touch only the DOM.) -/
def updateGame (s : GameState) : GameState :=
  let s1 := updateScore s s.hoverCluster.length
  updateClusters { s1 with hoverCluster := [] }

/-- The row indices of the hover-cluster cells lying in column `x`, sorted
descending (source: `.filter(([ix,iy]) => ix === x).map(([ix,iy]) => iy)
.sort((ax,bx) => bx - ax)`, i.e. bottom-most first; the sort is modelled by
insertion sort on the flipped order, which yields the same descending list). -/
def colYs (hc : List Pos) (x : Int) : List Int :=
  ((hc.filter (fun q => decide (q.1 = x))).map (fun q => q.2)).insertionSort
    (fun a b => b ≤ a)

/-- Delete the cells of a column at the listed row indices, in list order
(source: `this.board[x].splice(y, 1)` for each `y` of `ys`). -/
def removeYs (col : List Cell) (ys : List Int) : List Cell :=
  ys.foldl (fun c y => c.eraseIdx y.toNat) col

/-- Refill a column to `height` cells by inserting empty cells at the top
(source: `while (length < height) unshift({color: null, cluster: []})`). -/
def padTop (height : Nat) (col : List Cell) : List Cell :=
  List.replicate (height - col.length) emptyCell ++ col

/-- The horizontal-compaction loop (source lines 247-254): for `mx` from `x`
to `width - 1`, replace every cell of column `mx` with the cell to its right,
or with a fresh empty cell in the rightmost column. -/
def compactFrom (width height : Nat) (b : Board) (x : Nat) : Board :=
  (List.range' x (width - x)).foldl (fun b mx =>
    b.set mx ((List.range height).map (fun my =>
      if mx < width - 1 then (((b[mx + 1]?).getD [])[my]?).getD emptyCell
      else emptyCell))) b

/-- The per-column body of the `handleClick` loop (source lines 226-255):
remove this column's cluster cells bottom-up, count them off `numCells`, pad
the column back to `height`, and, if the column's cells all carry empty
cluster marks, compact columns leftward from it. -/
def processColumn (height width : Nat) (hc : List Pos) (b : Board) (numCells : Int)
    (x : Nat) : Board × Int :=
  let ys := colYs hc (x : Int)
  let col := padTop height (removeYs ((b[x]?).getD []) ys)
  let b1 := b.set x col
  if col.all (fun c => c.cluster.length = 0) then
    (compactFrom width height b1 x, numCells - ys.length)
  else
    (b1, numCells - ys.length)

/-- The column loop of `handleClick`: `for (x = width-1; x >= 0; x--)`;
`clickCols … n` processes columns `n-1, n-2, …, 0`. -/
def clickCols (height width : Nat) (hc : List Pos) : Nat → Board → Int → Board × Int
  | 0, b, numCells => (b, numCells)
  | n + 1, b, numCells =>
    let r := processColumn height width hc b numCells n
    clickCols height width hc n r.1 r.2

/-- `handleClick` (source lines 221-262): a no-op unless the hover cluster
has at least two cells; otherwise run the column loop, update the game state,
and hover again at the clicked coordinate. -/
def handleClick (s : GameState) (ox oy : Int) : Except GameError GameState :=
  if s.hoverCluster.length < 2 then .ok s
  else
    let r := clickCols s.height s.width s.hoverCluster s.width s.board s.numCells
    let s2 := updateGame { s with board := r.1, numCells := r.2 }
    (handleHover s2 ox oy).map (fun h => h.1)

/-- Selecting a cell in the browser fires `mouseover` before `click` at the
same coordinate, so the spec's `selectAt(x, y)` is `handleHover` followed by
`handleClick`. -/
def selectAt (s : GameState) (ox oy : Int) : Except GameError GameState :=
  match handleHover s ox oy with
  | .error e => .error e
  | .ok r => handleClick r.1 ox oy

/-- `randomBoard` (source lines 63-71): every cell gets a random palette
index below `ncolors` (`color_vocab[Math.floor(Math.random() * ncolors)]`);
the random draws are modelled by an arbitrary function `rnd` of the cell
position, reduced mod `ncolors`.  No cell is empty. -/
def randomBoard (width height ncolors : Nat) (rnd : Nat → Nat → Nat) : Board :=
  (List.range width).map fun x => (List.range height).map fun y =>
    { color := some (rnd x y % ncolors), cluster := [] }

/-- The `SameGame` constructor (source lines 24-43): initial fields, a random
board, then `updateGame` (the DOM table and hover score are presentation). -/
def SameGame.init (ncolors width height : Nat) (rnd : Nat → Nat → Nat) : GameState :=
  updateGame {
    ncolors := ncolors
    width := width
    height := height
    board := randomBoard width height ncolors rnd
    hoverCluster := []
    score := 0
    numCells := ((height * width : Nat) : Int)
    scoreLeft := 0
    scoreTotal := 0 }

/-- Run a sequence of `selectAt` calls. -/
def runClicks (s : GameState) : List (Int × Int) → Except GameError GameState
  | [] => .ok s
  | (x, y) :: rest =>
    match selectAt s x y with
    | .error e => .error e
    | .ok s1 => runClicks s1 rest

/-! ## Specification-side notions -/

/-- A position lies on the `width × height` grid. -/
def inGrid (width height : Nat) (p : Pos) : Prop :=
  0 ≤ p.1 ∧ p.1 < (width : Int) ∧ 0 ≤ p.2 ∧ p.2 < (height : Int)

instance (width height : Nat) (p : Pos) : Decidable (inGrid width height p) := by
  unfold inGrid; infer_instance

/-- 4-adjacency (up, down, left, right neighbors). -/
def adjacent (p q : Pos) : Prop :=
  (q.1 = p.1 - 1 ∧ q.2 = p.2) ∨ (q.1 = p.1 + 1 ∧ q.2 = p.2) ∨
    (q.1 = p.1 ∧ q.2 = p.2 - 1) ∨ (q.1 = p.1 ∧ q.2 = p.2 + 1)

instance (p q : Pos) : Decidable (adjacent p q) := by
  unfold adjacent; infer_instance

/-- One step between same-colored, non-empty, in-grid, 4-adjacent cells. -/
def colorStep (width height : Nat) (colorA : Pos → Option Nat) (p q : Pos) : Prop :=
  inGrid width height p ∧ inGrid width height q ∧ adjacent p q ∧
    colorA p ≠ none ∧ colorA q = colorA p

/-- Same-color 4-connectivity: the reflexive-transitive closure of
`colorStep`.  The maximal cluster of a non-empty cell `p` is
`{q | sameColorConn … p q}`. -/
def sameColorConn (width height : Nat) (colorA : Pos → Option Nat) : Pos → Pos → Prop :=
  Relation.ReflTransGen (colorStep width height colorA)

/-- A well-formed board: `width` columns of `height` cells each. -/
def boardWF (width height : Nat) (b : Board) : Prop :=
  b.length = width ∧ ∀ col ∈ b, col.length = height

instance (width height : Nat) (b : Board) : Decidable (boardWF width height b) := by
  unfold boardWF
  infer_instance

/-- A fully empty column. -/
def colEmpty (col : List Cell) : Prop := ∀ cell ∈ col, cell.color = none

instance (col : List Cell) : Decidable (colEmpty col) := by
  unfold colEmpty
  infer_instance

/-- The fully empty columns form a contiguous suffix at the right edge. -/
def emptySuffix (b : Board) : Prop :=
  ∀ i j : Nat, i ≤ j → j < b.length →
    colEmpty ((b[i]?).getD []) → colEmpty ((b[j]?).getD [])

/-- Every cell's cluster mark is empty exactly when the cell is empty — the
state of a board just after `updateClusters`, which `handleClick`'s
`every(c => c.cluster.length === 0)` test relies on. -/
def marksConsistent (b : Board) : Prop :=
  ∀ col ∈ b, ∀ cell ∈ col, (cell.cluster = [] ↔ cell.color = none)

instance (b : Board) : Decidable (marksConsistent b) := by
  unfold marksConsistent
  infer_instance

/-- The board invariants every reachable state satisfies: well-formed
dimensions, cluster marks consistent with colors, and fully empty columns
forming a contiguous suffix at the right edge. -/
def stateWF (s : GameState) : Prop :=
  boardWF s.width s.height s.board ∧ marksConsistent s.board ∧ emptySuffix s.board

/-- Number of non-empty cells on the board. -/
def nonEmptyCount (b : Board) : Nat :=
  (b.map (fun col => col.countP (fun cell => !cell.color.isNone))).sum

/-- The documented termination rule ("no cluster of size ≥ 2 anywhere"),
read off the stored cluster marks. -/
def noRemovableCluster (s : GameState) : Prop :=
  ∀ p ∈ gridPositions s.width s.height, (clusterAt s.board p.1 p.2).length ≤ 1

instance (s : GameState) : Decidable (noRemovableCluster s) := by
  unfold noRemovableCluster
  infer_instance

/-- A cell the DFS may collect: in grid, of the origin's color. -/
def goodCell (W H : Nat) (colorA : Pos → Option Nat) (c0 : Nat) (p : Pos) : Prop :=
  inGrid W H p ∧ colorA p = some c0

/-- Reachability from the origin through 4-adjacent cells of its color. -/
def reachFrom (W H : Nat) (colorA : Pos → Option Nat) (c0 : Nat) (o q : Pos) : Prop :=
  Relation.ReflTransGen
    (fun p q => goodCell W H colorA c0 p ∧ goodCell W H colorA c0 q ∧ adjacent p q) o q

/-- Nat-index view of the removal loop (the row indices of a cluster are
in-bounds, hence non-negative). -/
def removeIdxsN (col : List Cell) (ys : List Nat) : List Cell :=
  ys.foldl (fun c y => c.eraseIdx y) col

/-- Empty columns form a suffix among the columns at positions ≥ `n`. -/
def suffixFrom (b : Board) (n width : Nat) : Prop :=
  ∀ i j : Nat, n ≤ i → i ≤ j → j < width →
    colEmpty ((b[i]?).getD []) → colEmpty ((b[j]?).getD [])

/-- Total number of cluster rows removed over columns `0 … n-1`. -/
def sumYs (hc : List Pos) : Nat → Nat
  | 0 => 0
  | n + 1 => sumYs hc n + (colYs hc (n : Int)).length

/-! ## Grid positions and the DFS termination budget -/

theorem mem_gridPositions_iff {W H : Nat} {p : Pos} :
    p ∈ gridPositions W H ↔ inGrid W H p := by
  obtain ⟨px, py⟩ := p
  unfold gridPositions inGrid
  simp only [List.mem_flatMap, List.mem_map, List.mem_range, Prod.mk.injEq,
    Int.ofNat_eq_natCast]
  constructor
  · rintro ⟨y, ⟨y', hy', rfl⟩, x, ⟨x', hx', rfl⟩, hx, hy⟩
    omega
  · rintro ⟨h1, h2, h3, h4⟩
    exact ⟨py, ⟨py.toNat, by omega, by omega⟩, px, ⟨px.toNat, by omega, by omega⟩, rfl, rfl⟩

theorem unvisitedCount_cons_lt {W H : Nat} {visited : List Pos} {p : Pos}
    (hin : inGrid W H p) (hnv : p ∉ visited) :
    unvisitedCount W H (p :: visited) < unvisitedCount W H visited := by
  unfold unvisitedCount
  have hsub : (gridPositions W H).filter (fun q => decide (q ∉ p :: visited)) =
      ((gridPositions W H).filter (fun q => decide (q ∉ visited))).filter
        (fun q => decide (q ≠ p)) := by
    rw [List.filter_filter]
    apply List.filter_congr
    intro q _
    simp [List.mem_cons, not_or, and_comm]
  rw [hsub]
  rw [List.length_filter_lt_length_iff_exists]
  refine ⟨p, List.mem_filter.mpr ⟨mem_gridPositions_iff.mpr hin, by simpa using hnv⟩, by simp⟩

/-! ## Flood-fill correctness -/

theorem reachFrom_good {W H : Nat} {colorA : Pos → Option Nat} {c0 : Nat} {o q : Pos}
    (h : reachFrom W H colorA c0 o q) (ho : goodCell W H colorA c0 o) :
    goodCell W H colorA c0 q := by
  induction h with
  | refl => exact ho
  | tail _ hstep _ => exact hstep.2.1

theorem adjacent_symm {p q : Pos} (h : adjacent p q) : adjacent q p := by
  obtain ⟨px, py⟩ := p
  obtain ⟨qx, qy⟩ := q
  unfold adjacent at h ⊢
  dsimp only at h ⊢
  omega

theorem adjacent_mem_pushes {ox oy : Int} {q : Pos} (h : adjacent (ox, oy) q)
    (rest : List Pos) :
    q ∈ (ox, oy + 1) :: (ox, oy - 1) :: (ox + 1, oy) :: (ox - 1, oy) :: rest := by
  obtain ⟨qx, qy⟩ := q
  unfold adjacent at h
  dsimp only at h
  simp only [List.mem_cons, Prod.mk.injEq]
  rcases h with ⟨h1, h2⟩ | ⟨h1, h2⟩ | ⟨h1, h2⟩ | ⟨h1, h2⟩ <;> subst h1 <;> subst h2 <;> tauto

theorem not_inGrid_of_bounds {W H : Nat} {ox oy : Int}
    (h : oy < 0 ∨ (H : Int) ≤ oy ∨ ox < 0 ∨ (W : Int) ≤ ox) : ¬inGrid W H (ox, oy) := by
  unfold inGrid
  dsimp only
  omega

theorem inGrid_of_not_bounds {W H : Nat} {ox oy : Int}
    (h : ¬(oy < 0 ∨ (H : Int) ≤ oy ∨ ox < 0 ∨ (W : Int) ≤ ox)) : inGrid W H (ox, oy) := by
  unfold inGrid
  dsimp only
  omega

theorem floodFill_end_state {W H : Nat} {colorA : Pos → Option Nat} {c0 : Nat} {o : Pos}
    {members : List Pos}
    (hreach : ∀ p ∈ members, reachFrom W H colorA c0 o p)
    (hclosed : ∀ p ∈ members, ∀ q, adjacent p q → goodCell W H colorA c0 q → q ∈ members)
    (ho : o ∈ members) :
    ∀ p, p ∈ members ↔ reachFrom W H colorA c0 o p := by
  intro p
  constructor
  · exact hreach p
  · intro h
    induction h with
    | refl => exact ho
    | tail _ hstep ih => exact hclosed _ ih _ hstep.2.2 hstep.2.1

/-- Full characterization of the DFS worklist loop: given enough gas and the
loop invariants, the collected members are exactly the cells reachable from
the origin through same-colored neighbors, with no duplicates, and the
visited list grows by exactly those members. -/
theorem floodFill_spec (W H : Nat) (colorA : Pos → Option Nat) (c0 : Nat)
    (vis0 : List Pos) (o : Pos)
    (hgood_o : goodCell W H colorA c0 o)
    (hsep : ∀ q, reachFrom W H colorA c0 o q → q ∉ vis0) :
    ∀ gas visited members toVisit,
      5 * unvisitedCount W H visited + toVisit.length ≤ gas →
      (∀ p, p ∈ visited ↔ (p ∈ members ∨ p ∈ vis0)) →
      members.Nodup →
      (∀ p ∈ members, reachFrom W H colorA c0 o p) →
      (∀ q ∈ toVisit, goodCell W H colorA c0 q → reachFrom W H colorA c0 o q) →
      (∀ p ∈ members, ∀ q, adjacent p q → goodCell W H colorA c0 q →
        q ∈ members ∨ q ∈ toVisit) →
      (o ∈ members ∨ o ∈ toVisit) →
      (∀ p, p ∈ (floodFill W H colorA (some c0) gas visited members toVisit).1 ↔
        (p ∈ (floodFill W H colorA (some c0) gas visited members toVisit).2 ∨ p ∈ vis0)) ∧
      (floodFill W H colorA (some c0) gas visited members toVisit).2.Nodup ∧
      (∀ p, p ∈ (floodFill W H colorA (some c0) gas visited members toVisit).2 ↔
        reachFrom W H colorA c0 o p) := by
  intro gas
  induction gas with
  | zero =>
    intro visited members toVisit hgas hvis hnd hreach htv hclosed horig
    have htv0 : toVisit = [] := by
      cases toVisit with
      | nil => rfl
      | cons a l => simp at hgas
    subst htv0
    refine ⟨by simpa [floodFill] using hvis, by simpa [floodFill] using hnd, ?_⟩
    simp only [floodFill]
    exact floodFill_end_state hreach
      (fun p hp q hq hg => (hclosed p hp q hq hg).resolve_right (by simp))
      (horig.resolve_right (by simp))
  | succ gas ih =>
    intro visited members toVisit hgas hvis hnd hreach htv hclosed horig
    cases toVisit with
    | nil =>
      refine ⟨by simpa [floodFill] using hvis, by simpa [floodFill] using hnd, ?_⟩
      simp only [floodFill]
      exact floodFill_end_state hreach
        (fun p hp q hq hg => (hclosed p hp q hq hg).resolve_right (by simp))
        (horig.resolve_right (by simp))
    | cons hd rest =>
      obtain ⟨ox, oy⟩ := hd
      simp only [floodFill]
      split_ifs with hb hv hc
      · -- out of bounds: skip
        have hnotin : ¬inGrid W H (ox, oy) := not_inGrid_of_bounds hb
        apply ih visited members rest
        · simp only [List.length_cons] at hgas; omega
        · exact hvis
        · exact hnd
        · exact hreach
        · exact fun q hq => htv q (List.mem_cons_of_mem _ hq)
        · intro p hp q hq hg
          rcases hclosed p hp q hq hg with h | h
          · exact Or.inl h
          · rcases List.mem_cons.mp h with rfl | h
            · exact absurd hg.1 hnotin
            · exact Or.inr h
        · rcases horig with h | h
          · exact Or.inl h
          · rcases List.mem_cons.mp h with rfl | h
            · exact absurd hgood_o.1 hnotin
            · exact Or.inr h
      · -- already in a cluster: skip
        have hmem : (ox, oy) ∈ members ∨ (ox, oy) ∈ vis0 := (hvis _).mp hv
        apply ih visited members rest
        · simp only [List.length_cons] at hgas; omega
        · exact hvis
        · exact hnd
        · exact hreach
        · exact fun q hq => htv q (List.mem_cons_of_mem _ hq)
        · intro p hp q hq hg
          rcases hclosed p hp q hq hg with h | h
          · exact Or.inl h
          · rcases List.mem_cons.mp h with rfl | h
            · -- a good neighbor of a member is reachable, hence not in vis0
              have hr : reachFrom W H colorA c0 o (ox, oy) :=
                Relation.ReflTransGen.tail (hreach p hp)
                  ⟨reachFrom_good (hreach p hp) hgood_o, hg, hq⟩
              exact Or.inl (hmem.resolve_right (hsep _ hr))
            · exact Or.inr h
        · rcases horig with h | h
          · exact Or.inl h
          · rcases List.mem_cons.mp h with rfl | h
            · exact Or.inl (hmem.resolve_right (hsep _ (Relation.ReflTransGen.refl)))
            · exact Or.inr h
      · -- color matches: add to the cluster and push neighbors
        have hgrid : inGrid W H (ox, oy) := inGrid_of_not_bounds hb
        have hgood : goodCell W H colorA c0 (ox, oy) := ⟨hgrid, hc⟩
        have hreach_new : reachFrom W H colorA c0 o (ox, oy) :=
          htv _ (List.mem_cons_self _ _) hgood
        have hnotmem : (ox, oy) ∉ members := fun h => hv ((hvis _).mpr (Or.inl h))
        apply ih ((ox, oy) :: visited) (members ++ [(ox, oy)])
        · have hlt := @unvisitedCount_cons_lt W H visited (ox, oy) hgrid hv
          simp only [List.length_cons] at hgas ⊢
          omega
        · intro p
          simp only [List.mem_cons, List.mem_append, List.mem_singleton, hvis p]
          tauto
        · exact List.Nodup.append hnd (List.nodup_singleton _)
            (by simpa using fun h => hnotmem h)
        · intro p hp
          rcases List.mem_append.mp hp with h | h
          · exact hreach p h
          · rw [List.mem_singleton.mp h]; exact hreach_new
        · intro q hq hg
          rcases List.mem_cons.mp hq with rfl | hq'
          · exact Relation.ReflTransGen.tail hreach_new ⟨hgood, hg, by
              unfold adjacent; dsimp only; omega⟩
          · rcases List.mem_cons.mp hq' with rfl | hq'' 
            · exact Relation.ReflTransGen.tail hreach_new ⟨hgood, hg, by
                unfold adjacent; dsimp only; omega⟩
            · rcases List.mem_cons.mp hq'' with rfl | hq3
              · exact Relation.ReflTransGen.tail hreach_new ⟨hgood, hg, by
                  unfold adjacent; dsimp only; omega⟩
              · rcases List.mem_cons.mp hq3 with rfl | hq4
                · exact Relation.ReflTransGen.tail hreach_new ⟨hgood, hg, by
                    unfold adjacent; dsimp only; omega⟩
                · exact htv q (List.mem_cons_of_mem _ hq4) hg
        · intro p hp q hq hg
          rcases List.mem_append.mp hp with h | h
          · rcases hclosed p h q hq hg with h' | h'
            · exact Or.inl (List.mem_append_left _ h')
            · rcases List.mem_cons.mp h' with rfl | h''
              · exact Or.inl (List.mem_append_right _ (List.mem_singleton_self _))
              · exact Or.inr (List.mem_cons_of_mem _ (List.mem_cons_of_mem _
                  (List.mem_cons_of_mem _ (List.mem_cons_of_mem _ h''))))
          · rw [List.mem_singleton.mp h] at hq
            exact Or.inr (adjacent_mem_pushes hq rest)
        · rcases horig with h | h
          · exact Or.inl (List.mem_append_left _ h)
          · rcases List.mem_cons.mp h with rfl | h'
            · exact Or.inl (List.mem_append_right _ (List.mem_singleton_self _))
            · exact Or.inr (List.mem_cons_of_mem _ (List.mem_cons_of_mem _
                (List.mem_cons_of_mem _ (List.mem_cons_of_mem _ h'))))
      · -- different color: skip
        apply ih visited members rest
        · simp only [List.length_cons] at hgas; omega
        · exact hvis
        · exact hnd
        · exact hreach
        · exact fun q hq => htv q (List.mem_cons_of_mem _ hq)
        · intro p hp q hq hg
          rcases hclosed p hp q hq hg with h | h
          · exact Or.inl h
          · rcases List.mem_cons.mp h with rfl | h
            · exact absurd hg.2 hc
            · exact Or.inr h
        · rcases horig with h | h
          · exact Or.inl h
          · rcases List.mem_cons.mp h with rfl | h
            · exact absurd hgood_o.2 hc
            · exact Or.inr h

/-! ## From flood fill to the cluster partition -/

theorem sameColorConn_color_eq {W H : Nat} {colorA : Pos → Option Nat} {p q : Pos}
    (h : sameColorConn W H colorA p q) : colorA q = colorA p := by
  induction h with
  | refl => rfl
  | tail _ hstep ih => exact hstep.2.2.2.2.trans ih

theorem colorStep_symm {W H : Nat} {colorA : Pos → Option Nat} : 
    Symmetric (colorStep W H colorA) := by
  rintro p q ⟨h1, h2, h3, h4, h5⟩
  exact ⟨h2, h1, adjacent_symm h3, by rw [h5]; exact h4, h5.symm⟩

theorem sameColorConn_symm {W H : Nat} {colorA : Pos → Option Nat} {p q : Pos}
    (h : sameColorConn W H colorA p q) : sameColorConn W H colorA q p :=
  Relation.ReflTransGen.symmetric colorStep_symm h

theorem sameColorConn_trans {W H : Nat} {colorA : Pos → Option Nat} {p q r : Pos}
    (h1 : sameColorConn W H colorA p q) (h2 : sameColorConn W H colorA q r) :
    sameColorConn W H colorA p r :=
  Relation.ReflTransGen.trans h1 h2

theorem sameColorConn_iff_reachFrom {W H : Nat} {colorA : Pos → Option Nat} {c0 : Nat}
    {p q : Pos} (hp : colorA p = some c0) :
    sameColorConn W H colorA p q ↔ reachFrom W H colorA c0 p q := by
  constructor
  · intro h
    induction h with
    | refl => exact Relation.ReflTransGen.refl
    | tail hconn hstep ih =>
      rename_i b c
      have hb : colorA b = some c0 := (sameColorConn_color_eq hconn).trans hp
      exact Relation.ReflTransGen.tail ih
        ⟨⟨hstep.1, hb⟩, ⟨hstep.2.1, hstep.2.2.2.2.trans hb⟩, hstep.2.2.1⟩
  · intro h
    induction h with
    | refl => exact Relation.ReflTransGen.refl
    | tail _ hstep ih =>
      exact Relation.ReflTransGen.tail ih
        ⟨hstep.1.1, hstep.2.1.1, hstep.2.2, by rw [hstep.1.2]; exact Option.some_ne_none _,
          by rw [hstep.2.1.2, hstep.1.2]⟩

/-- Invariant-carrying characterization of the cluster scan: the accumulated
clusters are disjoint duplicate-free lists of in-grid non-empty cells, each
cluster is exactly the same-color connectivity class of each of its members,
and every in-grid non-empty cell still to be scanned (or already visited)
ends up in some cluster. -/
theorem clustersScan_spec (W H : Nat) (colorA : Pos → Option Nat) :
    ∀ scanRest visited acc,
      (∀ p ∈ scanRest, inGrid W H p) →
      (∀ p : Pos, p ∈ visited ↔ ∃ m, m ∈ acc ∧ p ∈ m) →
      (∀ m ∈ acc, ∀ p ∈ m, inGrid W H p ∧ colorA p ≠ none) →
      (∀ m ∈ acc, List.Nodup m) →
      (∀ m ∈ acc, ∀ p ∈ m, ∀ q, q ∈ m ↔ sameColorConn W H colorA p q) →
      List.Pairwise (fun m1 m2 => ∀ p, p ∈ m1 → p ∉ m2) acc →
      (∀ m ∈ clustersScan W H colorA scanRest visited acc, ∀ p ∈ m,
          inGrid W H p ∧ colorA p ≠ none) ∧
      (∀ m ∈ clustersScan W H colorA scanRest visited acc, List.Nodup m) ∧
      (∀ m ∈ clustersScan W H colorA scanRest visited acc, ∀ p ∈ m, ∀ q,
          q ∈ m ↔ sameColorConn W H colorA p q) ∧
      List.Pairwise (fun m1 m2 => ∀ p, p ∈ m1 → p ∉ m2)
        (clustersScan W H colorA scanRest visited acc) ∧
      (∀ p : Pos, inGrid W H p → colorA p ≠ none → p ∈ scanRest ∨ p ∈ visited →
        ∃ m, m ∈ clustersScan W H colorA scanRest visited acc ∧ p ∈ m) := by
  intro scanRest
  induction scanRest with
  | nil =>
    intro visited acc hgrid hvis h2 h3 h4 h5
    simp only [clustersScan]
    refine ⟨h2, h3, h4, h5, ?_⟩
    intro p _ _ hmem
    rcases hmem with h | h
    · simp at h
    · exact (hvis p).mp h
  | cons p0 rest ih =>
    intro visited acc hgrid hvis h2 h3 h4 h5
    by_cases hv : p0 ∈ visited
    · rw [clustersScan, if_pos hv]
      have r := ih visited acc (fun p hp => hgrid p (List.mem_cons_of_mem _ hp))
        hvis h2 h3 h4 h5
      refine ⟨r.1, r.2.1, r.2.2.1, r.2.2.2.1, ?_⟩
      intro p hpg hpc hmem
      apply r.2.2.2.2 p hpg hpc
      rcases hmem with h | h
      · rcases List.mem_cons.mp h with rfl | h
        · exact Or.inr hv
        · exact Or.inl h
      · exact Or.inr h
    · rw [clustersScan, if_neg hv]
      cases hc0 : colorA p0 with
      | none =>
        have r := ih visited acc (fun p hp => hgrid p (List.mem_cons_of_mem _ hp))
          hvis h2 h3 h4 h5
        refine ⟨r.1, r.2.1, r.2.2.1, r.2.2.2.1, ?_⟩
        intro p hpg hpc hmem
        apply r.2.2.2.2 p hpg hpc
        rcases hmem with h | h
        · rcases List.mem_cons.mp h with rfl | h
          · exact absurd hc0 hpc
          · exact Or.inl h
        · exact Or.inr h
      | some c0 =>
        have hgood0 : goodCell W H colorA c0 p0 :=
          ⟨hgrid p0 (List.mem_cons_self _ _), hc0⟩
        have hsep : ∀ q, reachFrom W H colorA c0 p0 q → q ∉ visited := by
          intro q hq hqv
          obtain ⟨m, hm, hqm⟩ := (hvis q).mp hqv
          have hconn : sameColorConn W H colorA p0 q :=
            (sameColorConn_iff_reachFrom hc0).mpr hq
          have : p0 ∈ m := (h4 m hm q hqm p0).mpr (sameColorConn_symm hconn)
          exact hv ((hvis p0).mpr ⟨m, hm, this⟩)
        have hff := floodFill_spec W H colorA c0 visited p0 hgood0 hsep
          (5 * unvisitedCount W H visited + 1) visited [] [p0]
          (by simp) (by simp) (by simp) (by simp)
          (by
            intro q hq _
            rw [List.mem_singleton.mp hq]
            exact Relation.ReflTransGen.refl)
          (by simp)
          (Or.inr (List.mem_singleton_self _))
        set r := floodFill W H colorA (some c0) (5 * unvisitedCount W H visited + 1)
          visited [] [p0] with hr
        obtain ⟨hffvis, hffnd, hffmem⟩ := hff
        have hmem_good : ∀ p ∈ r.2, goodCell W H colorA c0 p := by
          intro p hp
          exact reachFrom_good ((hffmem p).mp hp) hgood0
        have hmem_conn : ∀ p ∈ r.2, ∀ q, q ∈ r.2 ↔ sameColorConn W H colorA p q := by
          intro p hp q
          have hp0p : sameColorConn W H colorA p0 p :=
            (sameColorConn_iff_reachFrom hc0).mpr ((hffmem p).mp hp)
          rw [hffmem q, ← sameColorConn_iff_reachFrom hc0]
          constructor
          · intro h
            exact sameColorConn_trans (sameColorConn_symm hp0p) h
          · intro h
            exact sameColorConn_trans hp0p h
        have hmem_fresh : ∀ p ∈ r.2, p ∉ visited := by
          intro p hp
          exact hsep p ((hffmem p).mp hp)
        have r' := ih r.1 (r.2 :: acc)
          (fun p hp => hgrid p (List.mem_cons_of_mem _ hp))
          (by
            intro p
            rw [hffvis p]
            simp only [List.mem_cons]
            constructor
            · rintro (h | h)
              · exact ⟨r.2, Or.inl rfl, h⟩
              · obtain ⟨m, hm, hpm⟩ := (hvis p).mp h
                exact ⟨m, Or.inr hm, hpm⟩
            · rintro ⟨m, hm | hm, hpm⟩
              · exact Or.inl (hm ▸ hpm)
              · exact Or.inr ((hvis p).mpr ⟨m, hm, hpm⟩))
          (by
            intro m hm p hp
            rcases List.mem_cons.mp hm with rfl | hm'
            · have hg := hmem_good p hp
              exact ⟨hg.1, by rw [hg.2]; exact Option.some_ne_none _⟩
            · exact h2 m hm' p hp)
          (by
            intro m hm
            rcases List.mem_cons.mp hm with rfl | hm'
            · exact hffnd
            · exact h3 m hm')
          (by
            intro m hm p hp q
            rcases List.mem_cons.mp hm with rfl | hm'
            · exact hmem_conn p hp q
            · exact h4 m hm' p hp q)
          (by
            rw [List.pairwise_cons]
            refine ⟨?_, h5⟩
            intro m hm p hpr hpm
            exact hmem_fresh p hpr ((hvis p).mpr ⟨m, hm, hpm⟩))
        refine ⟨r'.1, r'.2.1, r'.2.2.1, r'.2.2.2.1, ?_⟩
        intro p hpg hpc hmem
        apply r'.2.2.2.2 p hpg hpc
        rcases hmem with h | h
        · rcases List.mem_cons.mp h with rfl | h
          · exact Or.inr ((hffvis p).mpr (Or.inl ((hffmem p).mpr Relation.ReflTransGen.refl)))
          · exact Or.inl h
        · exact Or.inr ((hffvis p).mpr (Or.inr h))

/-- The partition facts for `computeClusters` on any board. -/
theorem computeClusters_spec (W H : Nat) (colorA : Pos → Option Nat) :
    (∀ m ∈ computeClusters W H colorA, ∀ p ∈ m, inGrid W H p ∧ colorA p ≠ none) ∧
    (∀ m ∈ computeClusters W H colorA, List.Nodup m) ∧
    (∀ m ∈ computeClusters W H colorA, ∀ p ∈ m, ∀ q,
      q ∈ m ↔ sameColorConn W H colorA p q) ∧
    List.Pairwise (fun m1 m2 => ∀ p, p ∈ m1 → p ∉ m2) (computeClusters W H colorA) ∧
    (∀ p : Pos, inGrid W H p → colorA p ≠ none →
      ∃ m, m ∈ computeClusters W H colorA ∧ p ∈ m) := by
  have r := clustersScan_spec W H colorA (gridPositions W H) [] []
    (fun p hp => mem_gridPositions_iff.mp hp)
    (by simp) (by simp) (by simp) (by simp) List.Pairwise.nil
  exact ⟨r.1, r.2.1, r.2.2.1, r.2.2.2.1, fun p h1 h2 =>
    r.2.2.2.2 p h1 h2 (Or.inl (mem_gridPositions_iff.mpr h1))⟩

theorem lookupCluster_cases (cs : List (List Pos)) (p : Pos) :
    (lookupCluster cs p = [] ∧ ∀ m ∈ cs, p ∉ m) ∨
    (lookupCluster cs p ∈ cs ∧ p ∈ lookupCluster cs p) := by
  unfold lookupCluster
  cases hfind : cs.find? (fun m => decide (p ∈ m)) with
  | none =>
    left
    refine ⟨rfl, fun m hm hpm => ?_⟩
    have h := List.find?_eq_none.mp hfind m hm
    simp only [decide_eq_true_eq] at h
    exact h hpm
  | some m =>
    right
    exact ⟨List.mem_of_find?_eq_some hfind, by simpa using List.find?_some hfind⟩

/-! ## The board after `updateClusters` -/

theorem getCell?_updateClusters (s : GameState) {x y : Int}
    (h : inGrid s.width s.height (x, y)) :
    getCell? (updateClusters s).board x y =
      some { color := colorAt s.board (x, y),
             cluster := lookupCluster
               (computeClusters s.width s.height (colorAt s.board)) (x, y) } := by
  obtain ⟨h1, h2, h3, h4⟩ := h
  dsimp only at h1 h2 h3 h4
  unfold updateClusters getCell?
  rw [if_pos ⟨h1, h3⟩]
  simp only [List.getElem?_map, List.getElem?_range (show x.toNat < s.width by omega),
    List.getElem?_range (show y.toNat < s.height by omega), Option.map_some', Option.map_some,
    Option.bind_some, Option.some_bind, Int.ofNat_eq_natCast, Int.toNat_of_nonneg h1, Int.toNat_of_nonneg h3]

theorem getCell?_updateClusters_none (s : GameState) {x y : Int}
    (h : ¬inGrid s.width s.height (x, y)) :
    getCell? (updateClusters s).board x y = none := by
  unfold inGrid at h
  dsimp only at h
  unfold updateClusters getCell?
  split_ifs with hpos
  · rcases Decidable.em (x < (s.width : Int)) with hx | hx
    · simp only [List.getElem?_map, List.getElem?_range (show x.toNat < s.width by omega),
        Option.map_some', Option.map_some, Option.bind_some, Option.some_bind]
      rw [List.getElem?_eq_none (by simp [List.length_range]; omega)]
      rfl
    · simp only [List.getElem?_map]
      rw [List.getElem?_eq_none (by simp [List.length_range]; omega)]
      rfl
  · rfl

theorem colorAt_updateClusters (s : GameState) (p : Pos) (hp : inGrid s.width s.height p) :
    colorAt (updateClusters s).board p = colorAt s.board p := by
  obtain ⟨x, y⟩ := p
  unfold colorAt
  rw [getCell?_updateClusters s hp]
  rfl

theorem clusterAt_updateClusters (s : GameState) {x y : Int}
    (hp : inGrid s.width s.height (x, y)) :
    clusterAt (updateClusters s).board x y =
      lookupCluster (computeClusters s.width s.height (colorAt s.board)) (x, y) := by
  unfold clusterAt
  rw [getCell?_updateClusters s hp]
  rfl

theorem getCell?_natCast (b : Board) (i j : Nat) :
    getCell? b (i : Int) (j : Int) = (b[i]?).bind (fun col => col[j]?) := by
  unfold getCell?
  rw [if_pos ⟨Int.natCast_nonneg i, Int.natCast_nonneg j⟩, Int.toNat_natCast,
    Int.toNat_natCast]

theorem boardWF_updateClusters (s : GameState) :
    boardWF s.width s.height (updateClusters s).board := by
  unfold boardWF updateClusters
  constructor
  · simp
  · intro col hcol
    simp only [List.mem_map] at hcol
    obtain ⟨x, _, rfl⟩ := hcol
    simp

theorem updateClusters_score (s : GameState) : (updateClusters s).score = s.score := rfl

theorem updateClusters_fields (s : GameState) :
    (updateClusters s).width = s.width ∧ (updateClusters s).height = s.height ∧
    (updateClusters s).numCells = s.numCells ∧
    (updateClusters s).hoverCluster = s.hoverCluster ∧
    (updateClusters s).scoreLeft = s.scoreLeft ∧
    (updateClusters s).scoreTotal = s.scoreTotal :=
  ⟨rfl, rfl, rfl, rfl, rfl, rfl⟩

theorem lookupCluster_empty_iff (W H : Nat) (colorA : Pos → Option Nat) {p : Pos}
    (hp : inGrid W H p) :
    lookupCluster (computeClusters W H colorA) p = [] ↔ colorA p = none := by
  obtain ⟨spec1, _, _, _, spec5⟩ := computeClusters_spec W H colorA
  rcases lookupCluster_cases (computeClusters W H colorA) p with ⟨he, hnone⟩ | ⟨hm, hpm⟩
  · rw [he]
    simp only [true_iff]
    by_contra hc
    obtain ⟨m, hm, hpm⟩ := spec5 p hp hc
    exact hnone m hm hpm
  · constructor
    · intro he
      rw [he] at hpm
      simp at hpm
    · intro hnone
      exact absurd (spec1 _ hm p hpm).2 (by rw [hnone]; simp)

theorem marks_updateClusters (s : GameState) :
    marksConsistent (updateClusters s).board := by
  intro col hcol cell hcell
  unfold updateClusters at hcol
  simp only [List.mem_map] at hcol
  obtain ⟨x, ⟨x', hx', rfl⟩, rfl⟩ := hcol
  simp only [List.mem_map] at hcell
  obtain ⟨y, ⟨y', hy', rfl⟩, rfl⟩ := hcell
  simp only [List.mem_range] at hx' hy'
  exact lookupCluster_empty_iff s.width s.height (colorAt s.board)
    ⟨by simp, by simp [Int.ofNat_eq_natCast]; omega, by simp,
      by simp [Int.ofNat_eq_natCast]; omega⟩

/-! ## Gravity: per-column removal bottom-up, then refill from the top -/

theorem removeYs_eq_removeIdxsN (col : List Cell) (ys : List Int) :
    removeYs col ys = removeIdxsN col (ys.map Int.toNat) := by
  unfold removeYs removeIdxsN
  rw [List.foldl_map]

theorem removeIdxsN_spec : ∀ (ys : List Nat) (col : List Cell),
    List.Pairwise (fun a b => a > b) ys → (∀ y ∈ ys, y < col.length) →
    (removeIdxsN col ys).length = col.length - ys.length ∧
    ∀ i : Nat, i < col.length → i ∉ ys →
      (removeIdxsN col ys)[i - ys.countP (fun y => decide (y < i))]? = col[i]? := by
  intro ys
  induction ys with
  | nil =>
    intro col _ _
    refine ⟨by simp [removeIdxsN], ?_⟩
    intro i _ _
    simp [removeIdxsN]
  | cons y rest ih =>
    intro col hpw hbnd
    have hy : y < col.length := hbnd y (List.mem_cons_self _ _)
    have hrest_gt : ∀ y' ∈ rest, y' < y := fun y' h => (List.pairwise_cons.mp hpw).1 y' h
    have hlen_erase : (col.eraseIdx y).length = col.length - 1 := by
      rw [List.length_eraseIdx]
      simp [hy]
    have hbnd' : ∀ y' ∈ rest, y' < (col.eraseIdx y).length := by
      intro y' h
      have := hrest_gt y' h
      omega
    have hpw' := (List.pairwise_cons.mp hpw).2
    have hstep : removeIdxsN col (y :: rest) = removeIdxsN (col.eraseIdx y) rest := rfl
    obtain ⟨ihlen, ihptw⟩ := ih (col.eraseIdx y) hpw' hbnd'
    constructor
    · rw [hstep, ihlen, hlen_erase, List.length_cons]
      omega
    · intro i hi hin
      rw [hstep]
      rcases Nat.lt_or_ge i y with hlt | hge
      · have hin' : i ∉ rest := fun h => hin (List.mem_cons_of_mem _ h)
        have hres := ihptw i (by omega) hin'
        rw [List.getElem?_eraseIdx_of_lt _ _ _ hlt] at hres
        have hcnt : (y :: rest).countP (fun y' => decide (y' < i)) =
            rest.countP (fun y' => decide (y' < i)) := by
          rw [List.countP_cons]
          simp [show ¬(y < i) by omega]
        rw [hcnt]
        exact hres
      · have hne : i ≠ y := fun h => hin (h ▸ List.mem_cons_self _ _)
        have hgt : y < i := by omega
        have hi'lt : i - 1 < (col.eraseIdx y).length := by omega
        have hin' : i - 1 ∉ rest := by
          intro h
          have := hrest_gt (i - 1) h
          omega
        have hres := ihptw (i - 1) hi'lt hin'
        rw [List.getElem?_eraseIdx_of_ge _ _ _ (by omega : y ≤ i - 1)] at hres
        rw [show i - 1 + 1 = i by omega] at hres
        have hcnt : (y :: rest).countP (fun y' => decide (y' < i)) =
            rest.countP (fun y' => decide (y' < i - 1)) + 1 := by
          have e1 : rest.countP (fun y' => decide (y' < i)) =
              rest.countP (fun y' => decide (y' < i - 1)) :=
            List.countP_congr (fun y' hy' => by
              have h1 := hrest_gt y' hy'
              simp only [decide_eq_true_eq]
              omega)
          rw [List.countP_cons, e1]
          simp [hgt]
        rw [hcnt]
        rw [show i - (rest.countP (fun y' => decide (y' < i - 1)) + 1) =
          i - 1 - rest.countP (fun y' => decide (y' < i - 1)) by omega]
        exact hres

theorem removeIdxsN_perm : ∀ (ys : List Nat) (col : List Cell),
    List.Pairwise (fun a b => a > b) ys → (∀ y ∈ ys, y < col.length) →
    List.Perm (removeIdxsN col ys ++ ys.map (fun y => (col[y]?).getD emptyCell)) col := by
  intro ys
  induction ys with
  | nil =>
    intro col _ _
    simp [removeIdxsN]
  | cons y rest ih =>
    intro col hpw hbnd
    have hy : y < col.length := hbnd y (List.mem_cons_self _ _)
    have hrest_gt : ∀ y' ∈ rest, y' < y := fun y' h => (List.pairwise_cons.mp hpw).1 y' h
    have hlen_erase : (col.eraseIdx y).length = col.length - 1 := by
      rw [List.length_eraseIdx]
      simp [hy]
    have hbnd' : ∀ y' ∈ rest, y' < (col.eraseIdx y).length := by
      intro y' h
      have := hrest_gt y' h
      omega
    have hmap_eq : rest.map (fun y' => ((col.eraseIdx y)[y']?).getD emptyCell) =
        rest.map (fun y' => (col[y']?).getD emptyCell) := by
      apply List.map_congr_left
      intro y' hy'
      rw [List.getElem?_eraseIdx_of_lt _ _ _ (hrest_gt y' hy')]
    have ihp := ih (col.eraseIdx y) (List.pairwise_cons.mp hpw).2 hbnd'
    rw [hmap_eq] at ihp
    have hstep : removeIdxsN col (y :: rest) = removeIdxsN (col.eraseIdx y) rest := rfl
    rw [hstep, List.map_cons]
    have hcell : (col[y]?).getD emptyCell = col.get ⟨y, hy⟩ := by
      rw [List.getElem?_eq_getElem hy]
      rfl
    refine List.Perm.trans List.perm_middle (List.Perm.trans (ihp.cons _) ?_)
    rw [hcell, List.eraseIdx_eq_take_drop_succ]
    refine List.Perm.trans List.perm_middle.symm ?_
    rw [List.get_eq_getElem, List.getElem_cons_drop, List.take_append_drop]

theorem countP_replicate (n : Nat) (a : Cell) (p : Cell → Bool) :
    (List.replicate n a).countP p = if p a then n else 0 := by
  induction n with
  | zero => simp
  | succ n ih =>
    rw [List.replicate_succ, List.countP_cons, ih]
    by_cases h : p a <;> simp [h]

theorem padTop_length {height : Nat} {col : List Cell} (h : col.length ≤ height) :
    (padTop height col).length = height := by
  simp [padTop]
  omega

theorem padTop_getElem_pad {height : Nat} {col : List Cell} {j : Nat}
    (h : j < height - col.length) : (padTop height col)[j]? = some emptyCell := by
  unfold padTop
  rw [List.getElem?_append, if_pos (by simpa using h)]
  simp [List.getElem?_replicate, h]

theorem padTop_getElem_rest (height : Nat) (col : List Cell) {j : Nat}
    (h : height - col.length ≤ j) :
    (padTop height col)[j]? = col[j - (height - col.length)]? := by
  unfold padTop
  rw [List.getElem?_append_right (by simpa using h)]
  simp

theorem padTop_countP {height : Nat} {col : List Cell} {p : Cell → Bool}
    (hp : p emptyCell = false) : (padTop height col).countP p = col.countP p := by
  unfold padTop
  rw [List.countP_append, countP_replicate, hp]
  simp

/-! ## The per-column cluster rows `colYs` -/

theorem colYs_mem {hc : List Pos} {x : Int} {y : Int} :
    y ∈ colYs hc x ↔ (x, y) ∈ hc := by
  unfold colYs
  rw [(List.perm_insertionSort _ _).mem_iff]
  simp only [List.mem_map, List.mem_filter, decide_eq_true_eq]
  constructor
  · rintro ⟨⟨qx, qy⟩, ⟨hq, hx⟩, rfl⟩
    dsimp only at hx ⊢
    exact hx ▸ hq
  · intro h
    exact ⟨(x, y), ⟨h, rfl⟩, rfl⟩

theorem colYs_sorted {hc : List Pos} (hnd : hc.Nodup) (x : Int) :
    List.Pairwise (fun a b => a > b) (colYs hc x) := by
  have hnd2 : ((hc.filter (fun q => decide (q.1 = x))).map (fun q => q.2)).Nodup := by
    apply List.Nodup.map_on
    · intro q1 h1 q2 h2 heq
      have e1 := (List.mem_filter.mp h1).2
      have e2 := (List.mem_filter.mp h2).2
      simp only [decide_eq_true_eq] at e1 e2
      obtain ⟨a1, b1⟩ := q1
      obtain ⟨a2, b2⟩ := q2
      simp only at e1 e2 heq
      rw [e1, e2, heq]
    · exact hnd.filter _
  have hsorted : List.Pairwise (fun a b : Int => b ≤ a)
      (((hc.filter (fun q => decide (q.1 = x))).map (fun q => q.2)).insertionSort
        (fun a b => b ≤ a)) :=
    List.sorted_insertionSort _ _
  have hnd3 : (colYs hc x).Nodup := by
    unfold colYs
    exact (List.perm_insertionSort _ _).nodup_iff.mpr hnd2
  have := List.Pairwise.and hsorted hnd3
  exact this.imp (fun hab => by omega)

theorem colYs_length (hc : List Pos) (x : Int) :
    (colYs hc x).length = (hc.filter (fun q => decide (q.1 = x))).length := by
  unfold colYs
  rw [(List.perm_insertionSort _ _).length_eq, List.length_map]

/-- Transfer of the removal bookkeeping from `Int` row indices (as stored in
clusters) to `Nat` list indices. -/
theorem gravity_transfer {ys : List Int} (height : Nat)
    (hpw : List.Pairwise (fun a b => a > b) ys)
    (hbnd : ∀ y ∈ ys, 0 ≤ y ∧ y < (height : Int)) :
    List.Pairwise (fun a b => a > b) (ys.map Int.toNat) ∧
    (∀ y ∈ ys.map Int.toNat, y < height) ∧
    (∀ i : Nat, ((i : Int) ∈ ys ↔ i ∈ ys.map Int.toNat)) ∧
    (∀ i : Nat, ys.countP (fun y => decide (y < (i : Int))) =
      (ys.map Int.toNat).countP (fun y => decide (y < i))) ∧
    (∀ i : Nat, ys.countP (fun y => decide ((i : Int) < y)) =
      (ys.map Int.toNat).countP (fun y => decide (i < y))) := by
  refine ⟨?_, ?_, ?_, ?_, ?_⟩
  · rw [List.pairwise_map]
    refine hpw.imp_of_mem ?_
    intro a b ha hb hab
    have h1 := hbnd a ha
    have h2 := hbnd b hb
    omega
  · intro y hy
    obtain ⟨y0, hy0, rfl⟩ := List.mem_map.mp hy
    have := hbnd y0 hy0
    omega
  · intro i
    constructor
    · intro h
      exact List.mem_map.mpr ⟨(i : Int), h, by simp⟩
    · intro h
      obtain ⟨y0, hy0, he⟩ := List.mem_map.mp h
      have := hbnd y0 hy0
      have : y0 = (i : Int) := by omega
      exact this ▸ hy0
  · intro i
    rw [List.countP_map]
    apply List.countP_congr
    intro y hy
    have := hbnd y hy
    simp only [Function.comp_apply, decide_eq_true_eq]
    omega
  · intro i
    rw [List.countP_map]
    apply List.countP_congr
    intro y hy
    have := hbnd y hy
    simp only [Function.comp_apply, decide_eq_true_eq]
    omega

/-- Gravity specification for one column: removing the rows `ys` (sorted
bottom-most first, all in range) and refilling from the top yields a column
of exactly `height` cells whose first `ys.length` cells are empty, and in
which every kept cell has moved down by the number of removed cells below
it.  A cell below every removed cell keeps its position (its count is `0`). -/
theorem gravity_spec (height : Nat) (col : List Cell) (ys : List Int)
    (hcol : col.length = height)
    (hpw : List.Pairwise (fun a b => a > b) ys)
    (hbnd : ∀ y ∈ ys, 0 ≤ y ∧ y < (height : Int)) :
    (padTop height (removeYs col ys)).length = height ∧
    (∀ j : Nat, j < ys.length → (padTop height (removeYs col ys))[j]? = some emptyCell) ∧
    (∀ i : Nat, i < height → (i : Int) ∉ ys →
      (padTop height (removeYs col ys))[i + ys.countP (fun y => decide ((i : Int) < y))]? =
        col[i]?) := by
  obtain ⟨hpwN, hbndN, hmemN, hcntlt, hcntgt⟩ := gravity_transfer height hpw hbnd
  have hndN : (ys.map Int.toNat).Nodup := hpwN.imp (fun hab => Nat.ne_of_gt hab)
  have hbndN' : ∀ y ∈ ys.map Int.toNat, y < col.length := by
    intro y hy
    rw [hcol]
    exact hbndN y hy
  obtain ⟨hlen, hptw⟩ := removeIdxsN_spec (ys.map Int.toNat) col hpwN hbndN'
  have hklen : (ys.map Int.toNat).length ≤ height := by
    have hsub : ys.map Int.toNat ⊆ List.range height := by
      intro y hy
      exact List.mem_range.mpr (hbndN y hy)
    have := (List.subperm_of_subset hndN hsub).length_le
    simpa using this
  have hys_len : (ys.map Int.toNat).length = ys.length := List.length_map _ _
  have hrw : removeYs col ys = removeIdxsN col (ys.map Int.toNat) :=
    removeYs_eq_removeIdxsN col ys
  have hlen2 : (removeYs col ys).length = height - ys.length := by
    rw [hrw, hlen, hcol, hys_len]
  have hpad : height - (removeYs col ys).length = ys.length := by
    rw [hlen2]
    omega
  refine ⟨?_, ?_, ?_⟩
  · apply padTop_length
    rw [hlen2]
    omega
  · intro j hj
    apply padTop_getElem_pad
    rw [hpad]
    exact hj
  · intro i hi hnotin
    have hinN : i ∉ ys.map Int.toNat := fun h => hnotin ((hmemN i).mpr h)
    have hres := hptw i (by omega) hinN
    have hcle : (ys.map Int.toNat).countP (fun y => decide (y < i)) ≤ i := by
      have hsub : (ys.map Int.toNat).filter (fun y => decide (y < i)) ⊆ List.range i := by
        intro y hy
        have := List.mem_filter.mp hy
        simp only [decide_eq_true_eq] at this
        exact List.mem_range.mpr this.2
      have hndf : ((ys.map Int.toNat).filter (fun y => decide (y < i))).Nodup :=
        hndN.filter _
      have := (List.subperm_of_subset hndf hsub).length_le
      rw [List.countP_eq_length_filter]
      simpa using this
    have hsplit : (ys.map Int.toNat).countP (fun y => decide (y < i)) +
        (ys.map Int.toNat).countP (fun y => decide (i < y)) =
        (ys.map Int.toNat).length := by
      have hx := List.length_eq_countP_add_countP
        (fun y => decide (y < i)) (ys.map Int.toNat)
      have he : (ys.map Int.toNat).countP (fun y => decide ¬(decide (y < i) = true)) =
          (ys.map Int.toNat).countP (fun y => decide (i < y)) := by
        apply List.countP_congr
        intro y hy
        have hne : y ≠ i := fun h => hinN (h ▸ hy)
        simp only [decide_eq_true_eq]
        constructor
        · intro h
          omega
        · intro h
          omega
      omega
    rw [hcntgt i]
    rw [padTop_getElem_rest height (removeYs col ys) (by omega)]
    rw [show i + (ys.map Int.toNat).countP (fun y => decide (i < y)) -
      (height - (removeYs col ys).length) =
      i - (ys.map Int.toNat).countP (fun y => decide (y < i)) by omega]
    rw [hrw]
    exact hres

/-- Cell-count bookkeeping for gravity: when every removed row holds a
non-empty cell, the non-empty count of the column drops by exactly the
number of removed rows. -/
theorem gravity_countP (height : Nat) (col : List Cell) (ys : List Int)
    (hcol : col.length = height)
    (hpw : List.Pairwise (fun a b => a > b) ys)
    (hbnd : ∀ y ∈ ys, 0 ≤ y ∧ y < (height : Int))
    (hcolored : ∀ y ∈ ys, ((col[y.toNat]?).getD emptyCell).color ≠ none) :
    (padTop height (removeYs col ys)).countP (fun c => !c.color.isNone) + ys.length =
      col.countP (fun c => !c.color.isNone) := by
  obtain ⟨hpwN, hbndN, _, _, _⟩ := gravity_transfer height hpw hbnd
  have hbndN' : ∀ y ∈ ys.map Int.toNat, y < col.length := fun y hy => by
    rw [hcol]; exact hbndN y hy
  have hperm := removeIdxsN_perm (ys.map Int.toNat) col hpwN hbndN'
  have hcnt := hperm.countP_eq (fun c => !c.color.isNone)
  rw [List.countP_append] at hcnt
  have hrem : ((ys.map Int.toNat).map
      (fun y => (col[y]?).getD emptyCell)).countP (fun c => !c.color.isNone) =
      ys.length := by
    rw [List.countP_eq_length.mpr, List.length_map, List.length_map]
    intro c hc
    obtain ⟨y, hy, rfl⟩ := List.mem_map.mp hc
    obtain ⟨y0, hy0, rfl⟩ := List.mem_map.mp hy
    have hnn := hcolored y0 hy0
    cases hcc : ((col[y0.toNat]?).getD emptyCell).color with
    | none => exact absurd hcc hnn
    | some v => simp [hcc]
  rw [padTop_countP (by simp [emptyCell])]
  rw [removeYs_eq_removeIdxsN]
  omega

/-- A column of exactly `height` cells is reproduced by reading its cells
back one row at a time. -/
theorem mapColumn_id {height : Nat} {col : List Cell} (h : col.length = height) :
    (List.range height).map (fun my => ((col[my]?).getD emptyCell)) = col := by
  apply List.ext_getElem?
  intro i
  rcases Nat.lt_or_ge i height with hi | hi
  · rw [List.getElem?_map, List.getElem?_range hi]
    simp only [Option.map_some', Option.map_some]
    rw [List.getElem?_eq_getElem (by omega)]
    rfl
  · rw [List.getElem?_eq_none (by simpa using hi), List.getElem?_eq_none (by omega)]

/-- Characterization of the compaction loop, by induction over the columns it
touches: columns left of `x` are untouched, every column from `x` up to
`width - 2` is replaced by a row-by-row copy of the column to its right (read
from the board as it was when that column was processed — which is the
original board, since the loop runs left to right), and the last column
becomes row-by-row empty. -/
theorem compactAux (width height : Nat) :
    ∀ (n : Nat) (b : Board) (x : Nat), b.length = width → x + n = width →
    (∀ j, j < x →
      ((List.range' x n).foldl (fun b mx =>
        b.set mx ((List.range height).map (fun my =>
          if mx < width - 1 then (((b[mx + 1]?).getD [])[my]?).getD emptyCell
          else emptyCell))) b)[j]? = b[j]?) ∧
    (∀ j, x ≤ j → j + 1 < width →
      ((List.range' x n).foldl (fun b mx =>
        b.set mx ((List.range height).map (fun my =>
          if mx < width - 1 then (((b[mx + 1]?).getD [])[my]?).getD emptyCell
          else emptyCell))) b)[j]? =
        some ((List.range height).map (fun my => (((b[j + 1]?).getD [])[my]?).getD emptyCell))) ∧
    (n > 0 →
      ((List.range' x n).foldl (fun b mx =>
        b.set mx ((List.range height).map (fun my =>
          if mx < width - 1 then (((b[mx + 1]?).getD [])[my]?).getD emptyCell
          else emptyCell))) b)[width - 1]? =
        some ((List.range height).map (fun _ => emptyCell))) := by
  intro n
  induction n with
  | zero =>
    intro b x hlen hx
    simp only [List.range'_zero, List.foldl_nil]
    refine ⟨?_, ?_, ?_⟩
    · simp
    · intro j hj1 hj2
      exact absurd hj2 (by omega)
    · intro h
      exact absurd h (by omega)
  | succ n ih =>
    intro b x hlen hx
    rw [List.range'_succ, List.foldl_cons]
    have hxw : x < width := by omega
    set colx := (List.range height).map (fun my =>
      if x < width - 1 then (((b[x + 1]?).getD [])[my]?).getD emptyCell else emptyCell)
      with hcolx
    have hlen' : (b.set x colx).length = width := by
      rw [List.length_set]; exact hlen
    obtain ⟨ihA, ihB, ihC⟩ := ih (b.set x colx) (x + 1) hlen' (by omega)
    refine ⟨?_, ?_, ?_⟩
    · intro j hj
      rw [ihA j (by omega), List.getElem?_set_ne (by omega)]
    · intro j hj1 hj2
      rcases Nat.eq_or_lt_of_le hj1 with rfl | hlt
      · rw [ihA x (by omega)]
        have hset : (b.set x colx)[x]? = some colx := by
          simp [List.getElem?_set_self', List.getElem?_eq_getElem (show x < b.length by omega)]
        rw [hset, hcolx]
        congr 1
        apply List.map_congr_left
        intro my _
        rw [if_pos (by omega)]
      · rw [ihB j (by omega) hj2, List.getElem?_set_ne (by omega)]
    · intro _
      cases n with
      | zero =>
        have hxlast : x = width - 1 := by omega
        simp only [List.range'_zero, List.foldl_nil]
        have : (b.set x colx)[width - 1]? = some colx := by
          rw [← hxlast]
          simp [List.getElem?_set_self', List.getElem?_eq_getElem (show x < b.length by omega)]
        rw [this, hcolx]
        congr 1
        apply List.map_congr_left
        intro my _
        rw [if_neg (by omega)]
      | succ m =>
        exact ihC (by omega)

theorem compactFrom_spec (width height : Nat) (b : Board) (x : Nat)
    (hlen : b.length = width) (hx : x < width) :
    (∀ j, j < x → (compactFrom width height b x)[j]? = b[j]?) ∧
    (∀ j, x ≤ j → j + 1 < width →
      (compactFrom width height b x)[j]? =
        some ((List.range height).map (fun my => (((b[j + 1]?).getD [])[my]?).getD emptyCell))) ∧
    ((compactFrom width height b x)[width - 1]? =
      some ((List.range height).map (fun _ => emptyCell))) := by
  obtain ⟨hA, hB, hC⟩ := compactAux width height (width - x) b x hlen (by omega)
  exact ⟨hA, hB, hC (by omega)⟩

/-! ## The column loop of `handleClick` -/

theorem removeYs_length_le (col : List Cell) (ys : List Int) :
    (removeYs col ys).length ≤ col.length := by
  induction ys generalizing col with
  | nil => exact Nat.le_refl _
  | cons y rest ih =>
    calc (removeYs (col.eraseIdx y.toNat) rest).length
        ≤ (col.eraseIdx y.toNat).length := ih _
      _ ≤ col.length := (List.eraseIdx_sublist col y.toNat).length_le

theorem removeYs_subset (col : List Cell) (ys : List Int) :
    removeYs col ys ⊆ col := by
  induction ys generalizing col with
  | nil => exact fun c h => h
  | cons y rest ih =>
    intro c hc
    exact (List.eraseIdx_sublist col y.toNat).subset (ih (col.eraseIdx y.toNat) hc)

theorem padTop_mem {height : Nat} {col : List Cell} {c : Cell}
    (h : c ∈ padTop height col) : c = emptyCell ∨ c ∈ col := by
  unfold padTop at h
  rcases List.mem_append.mp h with h | h
  · exact Or.inl (List.eq_of_mem_replicate h)
  · exact Or.inr h

theorem compactFrom_length (width height : Nat) (b : Board) (x : Nat) :
    (compactFrom width height b x).length = b.length := by
  unfold compactFrom
  generalize List.range' x (width - x) = l
  induction l generalizing b with
  | nil => rfl
  | cons a l ih => rw [List.foldl_cons, ih, List.length_set]

/-- On a well-formed board, the compaction loop deletes column `x`, shifts
everything right of it one place left, and appends a fresh empty column. -/
theorem compactFrom_eq_append (width height : Nat) (b : Board) (x : Nat)
    (hlen : b.length = width) (hhts : ∀ col ∈ b, col.length = height) (hx : x < width) :
    compactFrom width height b x =
      b.take x ++ b.drop (x + 1) ++ [List.replicate height emptyCell] := by
  obtain ⟨hA, hB, hC⟩ := compactFrom_spec width height b x hlen hx
  apply List.ext_getElem?
  intro j
  have htklen : (b.take x).length = x := by
    rw [List.length_take, hlen]
    omega
  have hdrlen : (b.drop (x + 1)).length = width - (x + 1) := by
    rw [List.length_drop, hlen]
  rcases Nat.lt_or_ge j x with hj | hj
  · rw [hA j hj, List.getElem?_append,
      if_pos (by rw [List.length_append, htklen, hdrlen]; omega),
      List.getElem?_append, if_pos (by omega), List.getElem?_take_of_lt hj]
  rcases Nat.lt_or_ge j (width - 1) with hj2 | hj2
  · have hmap := hB j hj (by omega)
    have hjw : j + 1 < b.length := by omega
    have hcol : b[j + 1]? = some (b.get ⟨j + 1, hjw⟩) := List.getElem?_eq_getElem hjw
    have hclen : (b.get ⟨j + 1, hjw⟩).length = height := hhts _ (List.getElem_mem _)
    rw [hmap, hcol]
    simp only [Option.getD_some]
    rw [mapColumn_id hclen]
    rw [List.getElem?_append,
      if_pos (by rw [List.length_append, htklen, hdrlen]; omega),
      List.getElem?_append, if_neg (by omega), htklen, List.getElem?_drop]
    rw [show x + 1 + (j - x) = j + 1 by omega]
    exact hcol.symm
  rcases Nat.lt_or_ge j width with hj3 | hj3
  · have hjlast : j = width - 1 := by omega
    subst hjlast
    rw [hC]
    rw [List.getElem?_append_right (by rw [List.length_append, htklen, hdrlen]; omega)]
    rw [List.length_append, htklen, hdrlen,
      show width - 1 - (x + (width - (x + 1))) = 0 by omega]
    simp [List.map_const', List.length_range]
  · rw [List.getElem?_eq_none (by rw [compactFrom_length, hlen]; omega),
      List.getElem?_eq_none (by
        rw [List.length_append, List.length_append, htklen, hdrlen]
        simp
        omega)]

/-- Column-level reading of the compaction loop on a well-formed board. -/
theorem compactFrom_cols (width height : Nat) (b : Board) (x : Nat)
    (hlen : b.length = width) (hhts : ∀ col ∈ b, col.length = height) (hx : x < width) :
    (∀ j, j < x → (compactFrom width height b x)[j]? = b[j]?) ∧
    (∀ j, x ≤ j → j + 1 < width → (compactFrom width height b x)[j]? = b[j + 1]?) ∧
    (compactFrom width height b x)[width - 1]? = some (List.replicate height emptyCell) := by
  obtain ⟨hA, hB, hC⟩ := compactFrom_spec width height b x hlen hx
  refine ⟨hA, ?_, ?_⟩
  · intro j hj1 hj2
    have hjw : j + 1 < b.length := by omega
    have hcol : b[j + 1]? = some (b.get ⟨j + 1, hjw⟩) := List.getElem?_eq_getElem hjw
    have hclen : (b.get ⟨j + 1, hjw⟩).length = height := hhts _ (List.getElem_mem _)
    rw [hB j hj1 (by omega), hcol]
    simp only [Option.getD_some]
    rw [mapColumn_id hclen]
  · rw [hC]
    simp [List.map_const', List.length_range]

theorem colEmpty_replicate (height : Nat) : colEmpty (List.replicate height emptyCell) := by
  intro c hc
  rw [List.eq_of_mem_replicate hc]
  rfl

/-- All the bookkeeping facts of one iteration of the column loop: the board
keeps its dimensions, the cluster marks stay consistent, columns left of `x`
are untouched, and `numCells` goes down by the number of rows removed in
column `x`. -/
theorem processColumn_facts (height width : Nat) (hc : List Pos) (b : Board) (nc : Int)
    (x : Nat) (hlen : b.length = width) (hhts : ∀ col ∈ b, col.length = height)
    (hmarks : marksConsistent b) (hx : x < width) :
    (processColumn height width hc b nc x).1.length = width ∧
    (∀ col ∈ (processColumn height width hc b nc x).1, col.length = height) ∧
    marksConsistent (processColumn height width hc b nc x).1 ∧
    (processColumn height width hc b nc x).2 = nc - (colYs hc (x : Int)).length ∧
    (∀ j, j < x → (processColumn height width hc b nc x).1[j]? = b[j]?) := by
  have hbx : b[x]? = some (b.get ⟨x, by omega⟩) := List.getElem?_eq_getElem (by omega)
  have hcol0len : ((b[x]?).getD []).length = height := by
    rw [hbx]
    exact hhts _ (List.getElem_mem _)
  set col' := padTop height (removeYs ((b[x]?).getD []) (colYs hc (x : Int))) with hcol'
  have hcol'len : col'.length = height := by
    rw [hcol']
    exact padTop_length (le_trans (removeYs_length_le _ _) (le_of_eq hcol0len))
  have hcol'marks : ∀ cell ∈ col', (cell.cluster = [] ↔ cell.color = none) := by
    intro cell hcell
    rcases padTop_mem hcell with rfl | hcell'
    · simp [emptyCell]
    · exact hmarks _ (by rw [hbx] at hcell' ⊢; exact List.getElem_mem _)
        cell (removeYs_subset _ _ hcell')
  have hset_len : (b.set x col').length = width := by rw [List.length_set]; exact hlen
  have hset_hts : ∀ col ∈ b.set x col', col.length = height := by
    intro col hcol
    rcases List.mem_or_eq_of_mem_set hcol with h | rfl
    · exact hhts col h
    · exact hcol'len
  have hset_marks : marksConsistent (b.set x col') := by
    intro col hcol cell hcell
    rcases List.mem_or_eq_of_mem_set hcol with h | rfl
    · exact hmarks col h cell hcell
    · exact hcol'marks cell hcell
  simp only [processColumn]
  rw [← hcol']
  split_ifs with hall <;> dsimp only
  · obtain ⟨cA, cB, cC⟩ := compactFrom_cols width height (b.set x col') x hset_len hset_hts hx
    refine ⟨by rw [compactFrom_length, hset_len], ?_, ?_, rfl, ?_⟩
    · intro col hcol
      obtain ⟨j, hj, rfl⟩ := List.mem_iff_getElem.mp hcol
      have hjw : j < width := by
        rw [compactFrom_length, hset_len] at hj
        exact hj
      have he := List.getElem?_eq_getElem hj
      rcases Nat.lt_or_ge j x with h1 | h1
      · rw [cA j h1] at he
        have hjs : j < (b.set x col').length := by omega
        rw [List.getElem?_eq_getElem hjs] at he
        injection he with he
        rw [← he]
        exact hset_hts _ (List.getElem_mem _)
      · rcases Nat.lt_or_ge j (width - 1) with h2 | h2
        · rw [cB j h1 (by omega)] at he
          have hj1 : j + 1 < (b.set x col').length := by omega
          rw [List.getElem?_eq_getElem hj1] at he
          injection he with he
          rw [← he]
          exact hset_hts _ (List.getElem_mem _)
        · have hje : j = width - 1 := by omega
          subst hje
          rw [cC] at he
          injection he with he
          rw [← he]
          simp
    · intro col hcol cell hcell
      obtain ⟨j, hj, rfl⟩ := List.mem_iff_getElem.mp hcol
      have he := List.getElem?_eq_getElem hj
      have hjw : j < width := by
        rw [compactFrom_length, hset_len] at hj
        exact hj
      rcases Nat.lt_or_ge j x with h1 | h1
      · rw [cA j h1, List.getElem?_eq_getElem (by omega : j < (b.set x col').length)] at he
        injection he with he
        rw [← he] at hcell
        exact hset_marks _ (List.getElem_mem _) cell hcell
      · rcases Nat.lt_or_ge j (width - 1) with h2 | h2
        · rw [cB j h1 (by omega),
            List.getElem?_eq_getElem (by omega : j + 1 < (b.set x col').length)] at he
          injection he with he
          rw [← he] at hcell
          exact hset_marks _ (List.getElem_mem _) cell hcell
        · have hje : j = width - 1 := by omega
          subst hje
          rw [cC] at he
          injection he with he
          rw [← he] at hcell
          rw [List.eq_of_mem_replicate hcell]
          simp [emptyCell]
    · intro j hj
      rw [cA j hj, List.getElem?_set_ne (by omega)]
  · refine ⟨hset_len, hset_hts, hset_marks, rfl, ?_⟩
    intro j hj
    rw [List.getElem?_set_ne (by omega)]

/-- One iteration of the column loop pushes the empty-suffix frontier one
column left: if empty columns already form a suffix among positions `> x`,
they form a suffix among positions `≥ x` afterwards. -/
theorem processColumn_suffix (height width : Nat) (hc : List Pos) (b : Board) (nc : Int)
    (x : Nat) (hlen : b.length = width) (hhts : ∀ col ∈ b, col.length = height)
    (hmarks : marksConsistent b) (hx : x < width)
    (hsuf : suffixFrom b (x + 1) width) :
    suffixFrom (processColumn height width hc b nc x).1 x width := by
  have hbx : b[x]? = some (b.get ⟨x, by omega⟩) := List.getElem?_eq_getElem (by omega)
  have hcol0len : ((b[x]?).getD []).length = height := by
    rw [hbx]
    exact hhts _ (List.getElem_mem _)
  set col' := padTop height (removeYs ((b[x]?).getD []) (colYs hc (x : Int))) with hcol'
  have hcol'len : col'.length = height := by
    rw [hcol']
    exact padTop_length (le_trans (removeYs_length_le _ _) (le_of_eq hcol0len))
  have hcol'marks : ∀ cell ∈ col', (cell.cluster = [] ↔ cell.color = none) := by
    intro cell hcell
    rcases padTop_mem hcell with rfl | hcell'
    · simp [emptyCell]
    · exact hmarks _ (by rw [hbx] at hcell' ⊢; exact List.getElem_mem _)
        cell (removeYs_subset _ _ hcell')
  have hset_len : (b.set x col').length = width := by rw [List.length_set]; exact hlen
  have hset_hts : ∀ col ∈ b.set x col', col.length = height := by
    intro col hcol
    rcases List.mem_or_eq_of_mem_set hcol with h | rfl
    · exact hhts col h
    · exact hcol'len
  have hsetx : (b.set x col')[x]? = some col' := by
    simp [List.getElem?_set_self', List.getElem?_eq_getElem (show x < b.length by omega)]
  simp only [processColumn]
  rw [← hcol']
  split_ifs with hall <;> dsimp only
  · obtain ⟨cA, cB, cC⟩ := compactFrom_cols width height (b.set x col') x hset_len hset_hts hx
    intro i j hi hij hjw hie
    rcases Nat.lt_or_ge j (width - 1) with hj2 | hj2
    · have hi2 : i < width - 1 := by omega
      rw [cB i hi (by omega), List.getElem?_set_ne (by omega : x ≠ i + 1)] at hie
      rw [cB j (by omega) (by omega), List.getElem?_set_ne (by omega : x ≠ j + 1)]
      exact hsuf (i + 1) (j + 1) (by omega) (by omega) (by omega) hie
    · have hje : j = width - 1 := by omega
      subst hje
      rw [cC]
      exact colEmpty_replicate height
  · intro i j hi hij hjw hie
    rcases Nat.eq_or_lt_of_le hi with rfl | hgt
    · rw [hsetx] at hie
      simp only [Option.getD_some] at hie
      exfalso
      have hex : ∃ c ∈ col', ¬(c.cluster.length = 0) := by
        by_contra hcon
        push_neg at hcon
        exact hall (List.all_eq_true.mpr (fun c hcmem => decide_eq_true (hcon c hcmem)))
      obtain ⟨c, hcmem, hcne⟩ := hex
      have hcolor := hie c hcmem
      have := (hcol'marks c hcmem).mpr hcolor
      rw [this] at hcne
      simp at hcne
    · rw [List.getElem?_set_ne (by omega : x ≠ i)] at hie
      rw [List.getElem?_set_ne (by omega : x ≠ j)]
      exact hsuf i j (by omega) hij hjw hie

/-- The whole column loop preserves the board dimensions and mark
consistency, and establishes the empty-columns-on-the-right property. -/
theorem clickCols_invariant (height width : Nat) (hc : List Pos) :
    ∀ (n : Nat) (b : Board) (nc : Int),
      b.length = width → (∀ col ∈ b, col.length = height) → marksConsistent b →
      n ≤ width → suffixFrom b n width →
      (clickCols height width hc n b nc).1.length = width ∧
      (∀ col ∈ (clickCols height width hc n b nc).1, col.length = height) ∧
      marksConsistent (clickCols height width hc n b nc).1 ∧
      suffixFrom (clickCols height width hc n b nc).1 0 width := by
  intro n
  induction n with
  | zero =>
    intro b nc h1 h2 h3 _ h5
    exact ⟨h1, h2, h3, h5⟩
  | succ n ih =>
    intro b nc h1 h2 h3 hn h5
    obtain ⟨f1, f2, f3, _, _⟩ :=
      processColumn_facts height width hc b nc n h1 h2 h3 (by omega)
    have hsuf := processColumn_suffix height width hc b nc n h1 h2 h3 (by omega) h5
    exact ih (processColumn height width hc b nc n).1
      (processColumn height width hc b nc n).2 f1 f2 f3 (by omega) hsuf

/-! ## Cell counting through the column loop -/

theorem nonEmptyCount_append (l1 l2 : Board) :
    nonEmptyCount (l1 ++ l2) = nonEmptyCount l1 + nonEmptyCount l2 := by
  unfold nonEmptyCount
  rw [List.map_append, List.sum_append]

theorem countP_split_cols (l : List Pos) (n : Nat) :
    l.countP (fun q => decide (0 ≤ q.1 ∧ q.1 < ((n : Int) + 1))) =
      l.countP (fun q => decide (0 ≤ q.1 ∧ q.1 < (n : Int))) +
      l.countP (fun q => decide (q.1 = (n : Int))) := by
  induction l with
  | nil => rfl
  | cons a l ih =>
    simp only [List.countP_cons, ih]
    by_cases h1 : (0 ≤ a.1 ∧ a.1 < (n : Int) + 1) <;>
      by_cases h2 : (0 ≤ a.1 ∧ a.1 < (n : Int)) <;>
      by_cases h3 : (a.1 = (n : Int)) <;>
      simp [h1, h2, h3] <;> omega

theorem sumYs_eq_countP (hc : List Pos) : ∀ n : Nat,
    sumYs hc n = hc.countP (fun q => decide (0 ≤ q.1 ∧ q.1 < (n : Int))) := by
  intro n
  induction n with
  | zero =>
    rw [sumYs]
    symm
    rw [List.countP_eq_zero]
    intro q _
    simp only [decide_eq_true_eq, not_and]
    intro h
    omega
  | succ n ih =>
    have hcly : (colYs hc (n : Int)).length =
        hc.countP (fun q => decide (q.1 = (n : Int))) := by
      rw [colYs_length, List.countP_eq_length_filter]
    rw [sumYs, ih, hcly, ← countP_split_cols]
    apply List.countP_congr
    intro q _
    simp only [decide_eq_true_eq]
    constructor
    · intro h
      omega
    · intro h
      omega

theorem sumYs_total (width : Nat) (hc : List Pos)
    (hb : ∀ p ∈ hc, 0 ≤ p.1 ∧ p.1 < (width : Int)) :
    sumYs hc width = hc.length := by
  rw [sumYs_eq_countP]
  apply List.countP_eq_length.mpr
  intro q hq
  have := hb q hq
  simp only [decide_eq_true_eq]
  omega

theorem nonEmptyCount_cons (c : List Cell) (l : Board) :
    nonEmptyCount (c :: l) = c.countP (fun cell => !cell.color.isNone) + nonEmptyCount l := by
  simp [nonEmptyCount]

/-- One iteration of the column loop removes exactly the cluster cells of its
column from the non-empty cell count. -/
theorem processColumn_count (height width : Nat) (hc : List Pos) (b : Board) (nc : Int)
    (x : Nat) (hlen : b.length = width) (hhts : ∀ col ∈ b, col.length = height)
    (hmarks : marksConsistent b) (hx : x < width) (hnd : hc.Nodup)
    (hcells : ∀ p ∈ hc, p.1 = (x : Int) → inGrid width height p ∧ colorAt b p ≠ none) :
    nonEmptyCount (processColumn height width hc b nc x).1 +
      (colYs hc (x : Int)).length = nonEmptyCount b := by
  have hxb : x < b.length := by omega
  have hbx : b[x]? = some (b.get ⟨x, hxb⟩) := List.getElem?_eq_getElem hxb
  have hcol0len : ((b[x]?).getD []).length = height := by
    rw [hbx]
    exact hhts _ (List.getElem_mem _)
  have hpw := colYs_sorted hnd (x : Int)
  have hbnd : ∀ y ∈ colYs hc (x : Int), 0 ≤ y ∧ y < (height : Int) := by
    intro y hy
    have hmem := colYs_mem.mp hy
    have := (hcells _ hmem rfl).1
    exact ⟨this.2.2.1, this.2.2.2⟩
  have hcolored : ∀ y ∈ colYs hc (x : Int),
      ((((b[x]?).getD [])[y.toNat]?).getD emptyCell).color ≠ none := by
    intro y hy
    have hmem := colYs_mem.mp hy
    obtain ⟨hgrid, hcolor⟩ := hcells _ hmem rfl
    unfold colorAt getCell? at hcolor
    rw [if_pos ⟨by exact Int.natCast_nonneg x, hgrid.2.2.1⟩] at hcolor
    rw [Int.toNat_natCast] at hcolor
    rw [hbx] at hcolor ⊢
    simp only [Option.getD_some, Option.some_bind] at hcolor ⊢
    have hex : ∃ c, (b.get ⟨x, hxb⟩)[y.toNat]? = some c ∧ ¬c.color = none := by
      simpa using hcolor
    obtain ⟨c, hc1, hc2⟩ := hex
    rw [hc1]
    simpa using hc2
  have hgrav := gravity_countP height ((b[x]?).getD []) (colYs hc (x : Int))
    hcol0len hpw hbnd hcolored
  set col' := padTop height (removeYs ((b[x]?).getD []) (colYs hc (x : Int))) with hcol'
  have hcol'len : col'.length = height := by
    rw [hcol']
    exact padTop_length (le_trans (removeYs_length_le _ _) (le_of_eq hcol0len))
  have hcol'marks : ∀ cell ∈ col', (cell.cluster = [] ↔ cell.color = none) := by
    intro cell hcell
    rcases padTop_mem hcell with rfl | hcell'
    · simp [emptyCell]
    · exact hmarks _ (by rw [hbx] at hcell' ⊢; exact List.getElem_mem _)
        cell (removeYs_subset _ _ hcell')
  have hset : b.set x col' = b.take x ++ col' :: b.drop (x + 1) :=
    List.set_eq_take_cons_drop col' hxb
  have hb_decomp : b = b.take x ++ (b.get ⟨x, hxb⟩) :: b.drop (x + 1) := by
    conv_lhs => rw [← List.take_append_drop x b]
    congr 1
    rw [← List.getElem_cons_drop b x hxb, List.get_eq_getElem]
  have htklen : (b.take x).length = x := by
    rw [List.length_take]
    omega
  have hcount_b : nonEmptyCount b = nonEmptyCount (b.take x) +
      ((b.get ⟨x, hxb⟩).countP (fun cell => !cell.color.isNone) +
        nonEmptyCount (b.drop (x + 1))) := by
    conv_lhs => rw [hb_decomp]
    rw [nonEmptyCount_append, nonEmptyCount_cons]
  have hcount_set : nonEmptyCount (b.set x col') = nonEmptyCount (b.take x) +
      (col'.countP (fun cell => !cell.color.isNone) + nonEmptyCount (b.drop (x + 1))) := by
    rw [hset, nonEmptyCount_append, nonEmptyCount_cons]
  have hgrav' : col'.countP (fun cell => !cell.color.isNone) + (colYs hc (x : Int)).length =
      (b.get ⟨x, hxb⟩).countP (fun cell => !cell.color.isNone) := by
    rw [hcol']
    have : (b[x]?).getD [] = b.get ⟨x, hxb⟩ := by rw [hbx]; rfl
    rw [← this]
    exact hgrav
  simp only [processColumn]
  rw [← hcol']
  split_ifs with hall <;> dsimp only
  · -- compaction: the removed column is fully empty, counts are unchanged
    have hset_len : (b.set x col').length = width := by rw [List.length_set]; exact hlen
    have hset_hts : ∀ col ∈ b.set x col', col.length = height := by
      intro col hcol
      rcases List.mem_or_eq_of_mem_set hcol with h | rfl
      · exact hhts col h
      · exact hcol'len
    have hcomp := compactFrom_eq_append width height (b.set x col') x hset_len hset_hts hx
    have htake : (b.set x col').take x = b.take x := by
      rw [hset, List.take_left' htklen]
    have hdrop : (b.set x col').drop (x + 1) = b.drop (x + 1) := by
      rw [hset, show x + 1 = (b.take x).length + 1 by omega,
        List.drop_append 1]
      rfl
    rw [hcomp, htake, hdrop, nonEmptyCount_append, nonEmptyCount_append]
    have hrepl : nonEmptyCount [List.replicate height emptyCell] = 0 := by
      rw [nonEmptyCount_cons]
      rw [countP_replicate]
      simp [nonEmptyCount, emptyCell]
    have hcol'0 : col'.countP (fun cell => !cell.color.isNone) = 0 := by
      rw [List.countP_eq_zero]
      intro cell hcell
      have h1 := List.all_eq_true.mp hall cell hcell
      simp only [decide_eq_true_eq] at h1
      have h2 : cell.cluster = [] := List.length_eq_zero.mp h1
      have h3 := (hcol'marks cell hcell).mp h2
      simp [h3]
    rw [hrepl]
    omega
  · rw [hcount_set]
    omega

/-- Counting through the whole column loop: the non-empty cell count drops by
the total number of cluster rows removed, and `numCells` matches it. -/
theorem clickCols_count (height width : Nat) (hc : List Pos) (hnd : hc.Nodup) :
    ∀ (n : Nat) (b : Board) (nc : Int),
      b.length = width → (∀ col ∈ b, col.length = height) → marksConsistent b →
      n ≤ width →
      (∀ p ∈ hc, p.1 < (n : Int) → inGrid width height p ∧ colorAt b p ≠ none) →
      nonEmptyCount (clickCols height width hc n b nc).1 + sumYs hc n = nonEmptyCount b ∧
      (clickCols height width hc n b nc).2 = nc - sumYs hc n := by
  intro n
  induction n with
  | zero =>
    intro b nc _ _ _ _ _
    refine ⟨?_, ?_⟩
    · show nonEmptyCount b + sumYs hc 0 = nonEmptyCount b
      rw [sumYs]
      omega
    · show nc = nc - (sumYs hc 0 : Int)
      rw [sumYs]
      simp
  | succ n ih =>
    intro b nc h1 h2 h3 hn hcells
    obtain ⟨f1, f2, f3, f4, f5⟩ :=
      processColumn_facts height width hc b nc n h1 h2 h3 (by omega)
    have hcells_n : ∀ p ∈ hc, p.1 = (n : Int) →
        inGrid width height p ∧ colorAt b p ≠ none := by
      intro p hp he
      exact hcells p hp (by omega)
    have hpc := processColumn_count height width hc b nc n h1 h2 h3 (by omega) hnd hcells_n
    have hcells' : ∀ p ∈ hc, p.1 < (n : Int) →
        inGrid width height p ∧ colorAt (processColumn height width hc b nc n).1 p ≠ none := by
      intro p hp hlt
      obtain ⟨hg, hcol⟩ := hcells p hp (by omega)
      have h01 : 0 ≤ p.1 := hg.1
      refine ⟨hg, ?_⟩
      have hgc : getCell? (processColumn height width hc b nc n).1 p.1 p.2 =
          getCell? b p.1 p.2 := by
        unfold getCell?
        rw [if_pos ⟨hg.1, hg.2.2.1⟩, if_pos ⟨hg.1, hg.2.2.1⟩]
        rw [f5 p.1.toNat (by omega)]
      unfold colorAt
      rw [hgc]
      exact hcol
    obtain ⟨ih1, ih2⟩ := ih (processColumn height width hc b nc n).1
      (processColumn height width hc b nc n).2 f1 f2 f3 (by omega) hcells'
    have hsum : sumYs hc (n + 1) = sumYs hc n + (colYs hc (n : Int)).length := rfl
    refine ⟨?_, ?_⟩
    · show nonEmptyCount (clickCols height width hc n
        (processColumn height width hc b nc n).1
        (processColumn height width hc b nc n).2).1 + sumYs hc (n + 1) = nonEmptyCount b
      rw [hsum]
      omega
    · show (clickCols height width hc n
        (processColumn height width hc b nc n).1
        (processColumn height width hc b nc n).2).2 = nc - sumYs hc (n + 1)
      rw [ih2, f4, hsum]
      push_cast
      ring

/-! ## Game-level plumbing -/

theorem inGrid_of_getCell? {w h : Nat} {b : Board} {x y : Int} {cell : Cell}
    (hWF : boardWF w h b) (hcell : getCell? b x y = some cell) : inGrid w h (x, y) := by
  unfold getCell? at hcell
  split_ifs at hcell with hpos
  · obtain ⟨col, hcol, hc2⟩ := Option.bind_eq_some.mp hcell
    have hx : x.toNat < b.length := by
      by_contra hcon
      rw [List.getElem?_eq_none (by omega)] at hcol
      exact absurd hcol (by simp)
    have hcolmem : col ∈ b := by
      rw [List.getElem?_eq_getElem hx] at hcol
      injection hcol with hcol
      rw [← hcol]
      exact List.getElem_mem _
    have hy : y.toNat < col.length := by
      by_contra hcon
      rw [List.getElem?_eq_none (by omega)] at hc2
      exact absurd hc2 (by simp)
    have hbl : b.length = w := hWF.1
    have hcl : col.length = h := hWF.2 col hcolmem
    exact ⟨hpos.1, by omega, hpos.2, by omega⟩

theorem getCell?_some_of_inGrid {w h : Nat} {b : Board} {x y : Int}
    (hWF : boardWF w h b) (hgrid : inGrid w h (x, y)) :
    ∃ cell, getCell? b x y = some cell := by
  obtain ⟨h1, h2, h3, h4⟩ := hgrid
  dsimp only at h1 h2 h3 h4
  have hbl : b.length = w := hWF.1
  have hx : x.toNat < b.length := by omega
  have hy : y.toNat < (b.get ⟨x.toNat, hx⟩).length := by
    have hcl : (b.get ⟨x.toNat, hx⟩).length = h := hWF.2 _ (List.getElem_mem _)
    omega
  refine ⟨(b.get ⟨x.toNat, hx⟩).get ⟨y.toNat, hy⟩, ?_⟩
  unfold getCell?
  rw [if_pos ⟨h1, h3⟩, List.getElem?_eq_getElem hx]
  simp only [Option.some_bind]
  exact List.getElem?_eq_getElem hy

theorem clusterAt_eq_of_getCell? {b : Board} {x y : Int} {cell : Cell}
    (h : getCell? b x y = some cell) : clusterAt b x y = cell.cluster := by
  unfold clusterAt
  rw [h]
  rfl

/-- `updateGame` adds the hover cluster's squared size to the score,
recomputes the bonus from the current cell count, and leaves the counters
and dimensions alone. -/
theorem updateGame_fields (s : GameState) :
    (updateGame s).score = s.score +
      (s.hoverCluster.length : Int) * (s.hoverCluster.length : Int) ∧
    (updateGame s).scoreLeft = max ((50 - s.numCells) * 100) 0 ∧
    (updateGame s).scoreTotal = (updateGame s).score + (updateGame s).scoreLeft ∧
    (updateGame s).numCells = s.numCells ∧
    (updateGame s).width = s.width ∧ (updateGame s).height = s.height ∧
    (updateGame s).hoverCluster = [] :=
  ⟨rfl, rfl, rfl, rfl, rfl, rfl, rfl⟩

/-- Complete case analysis of a `selectAt` gesture on an existing cell:
either the stored cluster has fewer than two cells and the whole gesture only
resets the hover cluster, or the cluster is removed, the game state is
updated, and the pointer hovers at the same coordinate again. -/
theorem selectAt_eq (s : GameState) (x y : Int) {cell : Cell}
    (hcell : getCell? s.board x y = some cell) :
    (cell.cluster.length < 2 → selectAt s x y = .ok { s with hoverCluster := [] }) ∧
    (2 ≤ cell.cluster.length → selectAt s x y =
      (handleHover (updateGame { s with
          hoverCluster := cell.cluster,
          board := (clickCols s.height s.width cell.cluster s.width s.board s.numCells).1,
          numCells := (clickCols s.height s.width cell.cluster s.width s.board s.numCells).2 })
        x y).map (fun r => r.1)) := by
  constructor
  · intro hlt
    unfold selectAt handleHover
    rw [hcell]
    dsimp only
    rw [if_neg (by omega)]
    dsimp only
    unfold handleClick
    rw [if_pos (by simp)]
  · intro hge
    unfold selectAt handleHover
    rw [hcell]
    dsimp only
    rw [if_pos (by omega)]
    dsimp only
    show handleClick { s with hoverCluster := cell.cluster } x y = _
    unfold handleClick
    rw [if_neg (by dsimp only; omega)]
    dsimp only
    rfl

theorem handleHover_fields (s : GameState) (x y : Int) {r : GameState × Nat}
    (h : handleHover s x y = .ok r) :
    r.1.board = s.board ∧ r.1.score = s.score ∧ r.1.numCells = s.numCells ∧
    r.1.scoreLeft = s.scoreLeft ∧ r.1.scoreTotal = s.scoreTotal ∧
    r.1.width = s.width ∧ r.1.height = s.height := by
  unfold handleHover at h
  cases hcell : getCell? s.board x y with
  | none =>
    rw [hcell] at h
    exact absurd h (by simp)
  | some cell =>
    rw [hcell] at h
    dsimp only at h
    split_ifs at h with hlen
    · injection h with h2
      rw [← h2]
      exact ⟨rfl, rfl, rfl, rfl, rfl, rfl, rfl⟩
    · injection h with h2
      rw [← h2]
      exact ⟨rfl, rfl, rfl, rfl, rfl, rfl, rfl⟩

/-- The removal path of `selectAt`: on a well-formed board, selecting a cell
whose stored cluster has at least two members succeeds, runs the column loop,
adds the squared cluster size to the score, and recomputes the bonus from the
new cell count. -/
theorem selectAt_removal_spec (s : GameState) (x y : Int) {cell : Cell}
    (hWF : boardWF s.width s.height s.board)
    (hcell : getCell? s.board x y = some cell) (hge : 2 ≤ cell.cluster.length) :
    ∃ s', selectAt s x y = .ok s' ∧
      s'.score = s.score + (cell.cluster.length : Int) * cell.cluster.length ∧
      s'.numCells = (clickCols s.height s.width cell.cluster s.width s.board s.numCells).2 ∧
      s'.scoreLeft = max ((50 - s'.numCells) * 100) 0 ∧
      s'.scoreTotal = s'.score + s'.scoreLeft ∧
      s'.width = s.width ∧ s'.height = s.height ∧
      s'.board = (updateGame { s with
          hoverCluster := cell.cluster,
          board := (clickCols s.height s.width cell.cluster s.width s.board s.numCells).1,
          numCells := (clickCols s.height s.width cell.cluster s.width s.board
            s.numCells).2 }).board ∧
      boardWF s'.width s'.height s'.board := by
  have hrun := (selectAt_eq s x y hcell).2 hge
  set mid : GameState := { s with
      hoverCluster := cell.cluster,
      board := (clickCols s.height s.width cell.cluster s.width s.board s.numCells).1,
      numCells := (clickCols s.height s.width cell.cluster s.width s.board s.numCells).2 }
    with hmid
  set s2 := updateGame mid with hs2
  have hs2w : s2.width = s.width := rfl
  have hs2h : s2.height = s.height := rfl
  have hs2WF : boardWF s2.width s2.height s2.board := boardWF_updateClusters _
  have hgrid : inGrid s.width s.height (x, y) := inGrid_of_getCell? hWF hcell
  obtain ⟨cell2, hcell2⟩ := getCell?_some_of_inGrid hs2WF (by rw [hs2w, hs2h]; exact hgrid)
  cases hhover : handleHover s2 x y with
  | error e =>
    unfold handleHover at hhover
    rw [hcell2] at hhover
    dsimp only at hhover
    split_ifs at hhover
  | ok r =>
    rw [hhover] at hrun
    obtain ⟨hb, hsc, hnc, hsl, hst, hw, hh⟩ := handleHover_fields s2 x y hhover
    refine ⟨r.1, hrun, ?_, ?_, ?_, ?_, ?_, ?_, ?_, ?_, ?_⟩
    · rw [hsc]
      exact (updateGame_fields mid).1
    · rw [hnc]
      exact (updateGame_fields mid).2.2.2.1
    · rw [hsl, hnc]
      exact (updateGame_fields mid).2.1
    · rw [hst, hsl, hsc]
      exact (updateGame_fields mid).2.2.1
    · rw [hw]
      exact hs2w
    · rw [hh]
      exact hs2h
    · rw [hb]
    · rw [hb, hw]
      exact hs2WF.1
    · rw [hb, hh]
      exact hs2WF.2

/-! ## Colors are preserved by the cluster rebuild -/

theorem colors_updateClusters (s : GameState)
    (hWF : boardWF s.width s.height s.board) :
    (updateClusters s).board.map (fun col => col.map Cell.color) =
      s.board.map (fun col => col.map Cell.color) := by
  have hlen : s.board.length = s.width := hWF.1
  apply List.ext_getElem?
  intro i
  rw [List.getElem?_map, List.getElem?_map]
  by_cases hi : i < s.width
  · have hcol : ∃ col, s.board[i]? = some col ∧ col.length = s.height := by
      refine ⟨s.board.get ⟨i, by omega⟩, List.getElem?_eq_getElem (by omega), ?_⟩
      exact hWF.2 _ (List.getElem_mem _)
    obtain ⟨col, hcol, hcollen⟩ := hcol
    rw [hcol]
    unfold updateClusters
    dsimp only
    rw [List.getElem?_map, List.getElem?_map, List.getElem?_range hi]
    simp only [Option.map_some']
    congr 1
    rw [List.map_map, List.map_map]
    apply List.ext_getElem?
    intro j
    rw [List.getElem?_map, List.getElem?_map]
    by_cases hj : j < s.height
    · rw [List.getElem?_range hj, List.getElem?_eq_getElem (by omega)]
      simp only [Option.map_some']
      congr 1
      show colorAt s.board (Int.ofNat i, Int.ofNat j) = (col.get ⟨j, by omega⟩).color
      unfold colorAt
      simp only [Int.ofNat_eq_natCast]
      rw [getCell?_natCast, hcol]
      simp only [Option.some_bind]
      rw [List.getElem?_eq_getElem (by omega)]
      rfl
    · rw [List.getElem?_eq_none (by simp; omega), List.getElem?_eq_none (by omega)]
      rfl
  · have h2 : (updateClusters s).board.length = s.width := (boardWF_updateClusters s).1
    rw [List.getElem?_eq_none (by omega), List.getElem?_eq_none (by omega)]

theorem nonEmptyCount_map_color (b : Board) :
    nonEmptyCount b = ((b.map (fun col => col.map Cell.color)).map
      (fun col => col.countP (fun o => !o.isNone))).sum := by
  unfold nonEmptyCount
  rw [List.map_map]
  congr 1
  apply List.map_congr_left
  intro col _
  simp only [Function.comp]
  rw [List.countP_map]
  rfl

theorem nonEmptyCount_updateClusters (s : GameState)
    (hWF : boardWF s.width s.height s.board) :
    nonEmptyCount (updateClusters s).board = nonEmptyCount s.board := by
  rw [nonEmptyCount_map_color, nonEmptyCount_map_color, colors_updateClusters s hWF]

theorem colEmpty_map_color (col : List Cell) :
    colEmpty col ↔ ∀ o ∈ col.map Cell.color, o = none := by
  unfold colEmpty
  constructor
  · intro h o ho
    rw [List.mem_map] at ho
    obtain ⟨c, hc, rfl⟩ := ho
    exact h c hc
  · intro h c hc
    exact h c.color (List.mem_map_of_mem _ hc)

theorem emptySuffix_of_colors_eq {b1 b2 : Board}
    (h : b1.map (fun col => col.map Cell.color) = b2.map (fun col => col.map Cell.color))
    (he : emptySuffix b2) : emptySuffix b1 := by
  have hlen : b1.length = b2.length := by
    have h2 := congrArg List.length h
    simpa using h2
  have key : ∀ k : Nat,
      (colEmpty ((b1[k]?).getD []) ↔ colEmpty ((b2[k]?).getD [])) := by
    intro k
    have h1 : (b1.map (fun col => col.map Cell.color))[k]? =
        (b2.map (fun col => col.map Cell.color))[k]? := by rw [h]
    rw [List.getElem?_map, List.getElem?_map] at h1
    cases hc1 : b1[k]? with
    | none =>
      have hk : ¬k < b1.length := by
        intro hk
        rw [List.getElem?_eq_getElem hk] at hc1
        cases hc1
      rw [List.getElem?_eq_none (show b2.length ≤ k by omega)]
    | some c1 =>
      have hk : k < b1.length := by
        by_contra hk
        rw [List.getElem?_eq_none (by omega)] at hc1
        cases hc1
      obtain ⟨c2, hc2⟩ : ∃ c2, b2[k]? = some c2 :=
        ⟨b2.get ⟨k, by omega⟩, List.getElem?_eq_getElem (by omega)⟩
      rw [hc1, hc2] at h1
      simp only [Option.map_some'] at h1
      injection h1 with h1
      rw [hc2]
      dsimp only [Option.getD]
      rw [colEmpty_map_color, colEmpty_map_color, h1]
  intro i j hij hj hci
  exact (key j).mpr (he i j hij (by omega) ((key i).mp hci))

theorem emptySuffix_updateClusters (s : GameState)
    (hWF : boardWF s.width s.height s.board) (h : emptySuffix s.board) :
    emptySuffix (updateClusters s).board :=
  emptySuffix_of_colors_eq (colors_updateClusters s hWF) h

theorem emptySuffix_of_suffixFrom {b : Board} {width : Nat}
    (hlen : b.length = width) (h : suffixFrom b 0 width) : emptySuffix b := by
  intro i j hij hj hc
  exact h i j (Nat.zero_le i) hij (by omega) hc

theorem boardWF_randomBoard (width height ncolors : Nat) (rnd : Nat → Nat → Nat) :
    boardWF width height (randomBoard width height ncolors rnd) := by
  constructor
  · simp [randomBoard]
  · intro col hcol
    unfold randomBoard at hcol
    rw [List.mem_map] at hcol
    obtain ⟨x, _, rfl⟩ := hcol
    simp

theorem emptySuffix_randomBoard (width height ncolors : Nat) (rnd : Nat → Nat → Nat) :
    emptySuffix (randomBoard width height ncolors rnd) := by
  intro i j hij hj hci
  have hjw : j < width := by
    have : (randomBoard width height ncolors rnd).length = width :=
      (boardWF_randomBoard width height ncolors rnd).1
    omega
  have hiw : i < width := by omega
  have hcols : ∀ k : Nat, k < width →
      (randomBoard width height ncolors rnd)[k]? =
        some ((List.range height).map fun y =>
          ({ color := some (rnd k y % ncolors), cluster := [] } : Cell)) := by
    intro k hk
    unfold randomBoard
    rw [List.getElem?_map, List.getElem?_range hk]
    rfl
  have hzero : height = 0 := by
    by_contra hne
    rw [hcols i hiw] at hci
    dsimp only [Option.getD] at hci
    have h0 : (0 : Nat) ∈ List.range height := List.mem_range.mpr (by omega)
    have := hci _ (List.mem_map_of_mem _ h0)
    cases this
  rw [hcols j hjw]
  subst hzero
  intro c hc
  simp at hc

theorem stateWF_init (ncolors width height : Nat) (rnd : Nat → Nat → Nat) :
    stateWF (SameGame.init ncolors width height rnd) := by
  refine ⟨?_, ?_, ?_⟩
  · exact boardWF_updateClusters _
  · exact marks_updateClusters _
  · exact emptySuffix_updateClusters _
      (boardWF_randomBoard width height ncolors rnd)
      (emptySuffix_randomBoard width height ncolors rnd)

theorem selectAt_preserves {s s' : GameState} {x y : Int}
    (hinv : stateWF s) (h : selectAt s x y = .ok s') :
    stateWF s' ∧ s'.width = s.width ∧ s'.height = s.height ∧ s.score ≤ s'.score := by
  obtain ⟨hWF, hmarks, hsuf⟩ := hinv
  cases hcell : getCell? s.board x y with
  | none =>
    have herr : selectAt s x y = .error .TypeError := by
      unfold selectAt handleHover
      rw [hcell]
    rw [herr] at h
    cases h
  | some cell =>
    by_cases hlt : cell.cluster.length < 2
    · have heq := (selectAt_eq s x y hcell).1 hlt
      rw [heq] at h
      injection h with h
      rw [← h]
      exact ⟨⟨hWF, hmarks, hsuf⟩, rfl, rfl, le_refl _⟩
    · push_neg at hlt
      obtain ⟨s'', hok, hsc, hnc, hsl, hst, hw, hh, hb, hbWF⟩ :=
        selectAt_removal_spec s x y hWF hcell hlt
      rw [hok] at h
      injection h with h
      subst h
      have hcc := clickCols_invariant s.height s.width cell.cluster s.width s.board
        s.numCells hWF.1 hWF.2 hmarks (le_refl s.width)
        (fun i j hi hij hj _ => absurd (lt_of_le_of_lt (le_trans hi hij) hj)
          (lt_irrefl _))
      refine ⟨⟨hbWF, ?_, ?_⟩, hw, hh, ?_⟩
      · rw [hb]
        exact marks_updateClusters _
      · rw [hb]
        exact emptySuffix_updateClusters _ ⟨hcc.1, hcc.2.1⟩
          (emptySuffix_of_suffixFrom hcc.1 hcc.2.2.2)
      · rw [hsc]
        have hge : (0 : Int) ≤ (cell.cluster.length : Int) * cell.cluster.length := by
          positivity
        omega

theorem runClicks_preserves :
    ∀ (clicks : List (Int × Int)) (s : GameState), stateWF s →
      ∀ {s' : GameState}, runClicks s clicks = .ok s' →
        stateWF s' ∧ s.score ≤ s'.score := by
  intro clicks
  induction clicks with
  | nil =>
    intro s hinv s' h
    injection h with h
    rw [← h]
    exact ⟨hinv, le_refl _⟩
  | cons c rest ih =>
    intro s hinv s' h
    obtain ⟨x, y⟩ := c
    cases hsel : selectAt s x y with
    | error e =>
      have herr : runClicks s ((x, y) :: rest) = .error e := by
        unfold runClicks
        rw [hsel]
      rw [herr] at h
      cases h
    | ok s1 =>
      have hstep : runClicks s ((x, y) :: rest) = runClicks s1 rest := by
        simp only [runClicks, hsel]
      rw [hstep] at h
      obtain ⟨hinv1, _, _, hsc⟩ := selectAt_preserves hinv hsel
      obtain ⟨hinv', hsc'⟩ := ih s1 hinv1 h
      exact ⟨hinv', le_trans hsc hsc'⟩

/-! ## The compaction test reads emptiness off the cluster marks -/

theorem clusterTest_iff_colEmpty (height : Nat) {b : Board} {x : Nat}
    (hmarks : marksConsistent b) (hx : x < b.length) (ys : List Int) :
    ((padTop height (removeYs ((b[x]?).getD []) ys)).all
        (fun c => c.cluster.length = 0) = true) ↔
      colEmpty (padTop height (removeYs ((b[x]?).getD []) ys)) := by
  have hbx : (b[x]?).getD [] = b.get ⟨x, hx⟩ := by
    rw [List.getElem?_eq_getElem hx]
    rfl
  have hmem : ∀ c ∈ padTop height (removeYs ((b[x]?).getD []) ys),
      (c.cluster = [] ↔ c.color = none) := by
    intro c hcp
    rcases padTop_mem hcp with rfl | hcp'
    · simp [emptyCell]
    · refine hmarks (b.get ⟨x, hx⟩) (List.getElem_mem _) c ?_
      rw [hbx] at hcp'
      exact removeYs_subset _ _ hcp'
  constructor
  · intro hall c hc
    have h1 := List.all_eq_true.mp hall c hc
    simp only [decide_eq_true_eq] at h1
    exact (hmem c hc).mp (List.eq_nil_of_length_eq_zero h1)
  · intro hemp
    apply List.all_eq_true.mpr
    intro c hc
    simp only [decide_eq_true_eq]
    rw [(hmem c hc).mpr (hemp c hc)]
    rfl

theorem take_set_self (l : Board) (n : Nat) (a : List Cell) :
    (l.set n a).take n = l.take n := by
  apply List.ext_getElem?
  intro j
  rcases Nat.lt_or_ge j n with h | h
  · rw [List.getElem?_take_of_lt h, List.getElem?_take_of_lt h,
      List.getElem?_set_ne (by omega)]
  · rw [List.getElem?_eq_none (by rw [List.length_take, List.length_set]; omega),
      List.getElem?_eq_none (by rw [List.length_take]; omega)]

theorem drop_set_self (l : Board) (x : Nat) (a : List Cell) :
    (l.set x a).drop (x + 1) = l.drop (x + 1) := by
  rw [List.drop_set, if_pos (by omega)]

/-! ## Claim theorems -/

/-- C1: the termination check disagrees with the documented rule.  On the
3×1 board `[color 0, color 1, color 0]` every cluster is a singleton, so the
rule "true exactly when every cluster has size ≤ 1" demands `true` — yet
`checkWin` returns `false`, because it tests the truthiness of
`cluster.length` and after `updateClusters` every non-empty cell carries a
non-empty (singleton) cluster list.  `checkWin` is `true` only on a fully
empty board. -/
theorem c1_checkWin_disagrees_with_termination_rule :
    noRemovableCluster (SameGame.init 2 3 1 (fun x _ => x % 2)) ∧
    checkWin (SameGame.init 2 3 1 (fun x _ => x % 2)) = false :=
  ⟨by decide, by decide⟩

/-- C8: selecting a coordinate whose stored cluster has fewer than two cells
(a singleton cell or an empty cell) is a harmless no-op, not an error: the
call succeeds and board, score and remaining-cell count are unchanged. -/
theorem c8_selectAt_noop (s : GameState) (x y : Int) (cell : Cell)
    (hcell : getCell? s.board x y = some cell)
    (hlt : cell.cluster.length < 2) :
    ∃ s', selectAt s x y = .ok s' ∧ s'.board = s.board ∧
      s'.score = s.score ∧ s'.numCells = s.numCells :=
  ⟨{ s with hoverCluster := [] }, (selectAt_eq s x y hcell).1 hlt, rfl, rfl, rfl⟩

theorem c8_selectAt_noop_witness :
    (getCell? (SameGame.init 1 1 1 (fun _ _ => 0)).board 0 0 =
      some { color := some 0, cluster := [((0 : Int), (0 : Int))] }) ∧
    ({ color := some 0, cluster := [((0 : Int), (0 : Int))] } : Cell).cluster.length < 2 ∧
    (∃ s', selectAt (SameGame.init 1 1 1 (fun _ _ => 0)) 0 0 = .ok s' ∧
      s'.board = (SameGame.init 1 1 1 (fun _ _ => 0)).board ∧
      s'.score = (SameGame.init 1 1 1 (fun _ _ => 0)).score ∧
      s'.numCells = (SameGame.init 1 1 1 (fun _ _ => 0)).numCells) :=
  ⟨by decide, by decide,
    c8_selectAt_noop (SameGame.init 1 1 1 (fun _ _ => 0)) 0 0
      { color := some 0, cluster := [((0 : Int), (0 : Int))] }
      (by decide) (by decide)⟩

/-- C9 counterexample: an out-of-range access does not signal the
`OutOfBounds` error the design names.  The code has no bounds check at all:
`this.board[ox][oy]` is `undefined` and reading `.cluster` raises a
JavaScript `TypeError`, a different failure. -/
theorem c9_oob_counterexample :
    handleHover (SameGame.init 1 1 1 (fun _ _ => 0)) 1 0 = .error .TypeError ∧
    (Except.error GameError.TypeError :
        Except GameError (GameState × Nat)) ≠ .error .OutOfBounds :=
  ⟨by decide, by decide⟩

/-- C9 (amended): for every well-formed state and coordinate with `x` outside
`0..width-1` or `y` outside `0..height-1`, the board access in
`handleHover`/`selectAt` fails with a `TypeError` (the JavaScript behaviour),
not with an `OutOfBounds` error. -/
theorem c9_oob_signals_typeerror (s : GameState) (x y : Int)
    (hWF : boardWF s.width s.height s.board)
    (hoob : x < 0 ∨ (s.width : Int) ≤ x ∨ y < 0 ∨ (s.height : Int) ≤ y) :
    handleHover s x y = .error .TypeError ∧
    selectAt s x y = .error .TypeError := by
  have hnone : getCell? s.board x y = none := by
    cases hc : getCell? s.board x y with
    | none => rfl
    | some cell =>
      exact absurd (inGrid_of_getCell? hWF hc)
        (not_inGrid_of_bounds (by omega))
  constructor
  · unfold handleHover
    rw [hnone]
  · unfold selectAt handleHover
    rw [hnone]

theorem c9_oob_signals_typeerror_witness :
    boardWF (SameGame.init 1 1 1 (fun _ _ => 0)).width
      (SameGame.init 1 1 1 (fun _ _ => 0)).height
      (SameGame.init 1 1 1 (fun _ _ => 0)).board ∧
    ((1 : Int) < 0 ∨ ((SameGame.init 1 1 1 (fun _ _ => 0)).width : Int) ≤ 1 ∨
      (0 : Int) < 0 ∨ ((SameGame.init 1 1 1 (fun _ _ => 0)).height : Int) ≤ 0) ∧
    (handleHover (SameGame.init 1 1 1 (fun _ _ => 0)) 1 0 = .error .TypeError ∧
      selectAt (SameGame.init 1 1 1 (fun _ _ => 0)) 1 0 = .error .TypeError) :=
  ⟨by decide, by decide, c9_oob_signals_typeerror _ 1 0 (by decide) (by decide)⟩

/-- C2: gravity is correct per column.  For a column of the board and the
hover cluster's rows in that column (`colYs`, sorted bottom-most first, so
removals are applied from the bottommost affected row upward), after deleting
those cells and refilling from the top (`padTop`): the column again has
`height` cells, the first `colYs` many cells from the top are freshly
inserted empty cells, and every kept cell at row `i` moves down to row
`i + (number of removed rows below it)` — in particular a cell with no
removed cell below it keeps its position. -/
theorem c2_gravity_correct (height : Nat) (col : List Cell) (hc : List Pos)
    (x : Int) (hnd : hc.Nodup) (hcol : col.length = height)
    (hbnd : ∀ y ∈ colYs hc x, 0 ≤ y ∧ y < (height : Int)) :
    (padTop height (removeYs col (colYs hc x))).length = height ∧
    (∀ j : Nat, j < (colYs hc x).length →
      (padTop height (removeYs col (colYs hc x)))[j]? = some emptyCell) ∧
    (∀ i : Nat, i < height → (x, (i : Int)) ∉ hc →
      (padTop height (removeYs col (colYs hc x)))[i + (colYs hc x).countP
        (fun y => decide ((i : Int) < y))]? = col[i]?) := by
  have r := gravity_spec height col (colYs hc x) hcol (colYs_sorted hnd x) hbnd
  refine ⟨r.1, r.2.1, ?_⟩
  intro i hi hmem
  exact r.2.2 i hi (fun hin => hmem (colYs_mem.mp hin))

theorem c2_gravity_correct_witness :
    ([((0 : Int), (0 : Int)), ((0 : Int), (1 : Int))] : List Pos).Nodup ∧
    ([{ color := some 0, cluster := [] }, { color := some 0, cluster := [] },
      { color := some 1, cluster := [] }] : List Cell).length = 3 ∧
    (∀ y ∈ colYs [((0 : Int), (0 : Int)), ((0 : Int), (1 : Int))] 0,
      0 ≤ y ∧ y < (3 : Int)) ∧
    ((padTop 3 (removeYs [{ color := some 0, cluster := [] },
        { color := some 0, cluster := [] }, { color := some 1, cluster := [] }]
        (colYs [((0 : Int), (0 : Int)), ((0 : Int), (1 : Int))] 0))).length = 3 ∧
    (∀ j : Nat, j < (colYs [((0 : Int), (0 : Int)), ((0 : Int), (1 : Int))] 0).length →
      (padTop 3 (removeYs [{ color := some 0, cluster := [] },
        { color := some 0, cluster := [] }, { color := some 1, cluster := [] }]
        (colYs [((0 : Int), (0 : Int)), ((0 : Int), (1 : Int))] 0)))[j]? =
          some emptyCell) ∧
    (∀ i : Nat, i < 3 →
      ((0 : Int), (i : Int)) ∉ ([((0 : Int), (0 : Int)), ((0 : Int), (1 : Int))] : List Pos) →
      (padTop 3 (removeYs [{ color := some 0, cluster := [] },
        { color := some 0, cluster := [] }, { color := some 1, cluster := [] }]
        (colYs [((0 : Int), (0 : Int)), ((0 : Int), (1 : Int))] 0)))[i +
          (colYs [((0 : Int), (0 : Int)), ((0 : Int), (1 : Int))] 0).countP
            (fun y => decide ((i : Int) < y))]? =
        ([{ color := some 0, cluster := [] }, { color := some 0, cluster := [] },
          { color := some 1, cluster := [] }] : List Cell)[i]?)) :=
  ⟨by decide, by decide, by decide,
    c2_gravity_correct 3
      [{ color := some 0, cluster := [] }, { color := some 0, cluster := [] },
        { color := some 1, cluster := [] }]
      [((0 : Int), (0 : Int)), ((0 : Int), (1 : Int))] 0
      (by decide) (by decide) (by decide)⟩

/-- C3: horizontal compaction is correct.  For each column `x` handled by the
removal loop: if the column is left fully empty after gravity, it is
eliminated — every column to its right shifts one step left and the rightmost
column becomes a fully empty column — while columns left of `x` are
untouched; if the column is not fully empty, the board only gets the new
column written back at `x`.  The third conjunct records the right-to-left
processing order: the loop at `x + 1` first handles column `x` and then
recurses on the columns to its left, so a compaction never invalidates an
earlier (more rightward) one. -/
theorem c3_compaction_correct (height width : Nat) (hc : List Pos) (b : Board)
    (nc : Int) (x : Nat) (hlen : b.length = width)
    (hhts : ∀ col ∈ b, col.length = height) (hmarks : marksConsistent b)
    (hx : x < width) :
    (colEmpty (padTop height (removeYs ((b[x]?).getD []) (colYs hc (x : Int)))) →
      (processColumn height width hc b nc x).1 =
        b.take x ++ b.drop (x + 1) ++ [List.replicate height emptyCell]) ∧
    (¬colEmpty (padTop height (removeYs ((b[x]?).getD []) (colYs hc (x : Int)))) →
      (processColumn height width hc b nc x).1 =
        b.set x (padTop height (removeYs ((b[x]?).getD []) (colYs hc (x : Int))))) ∧
    clickCols height width hc (x + 1) b nc =
      clickCols height width hc x (processColumn height width hc b nc x).1
        (processColumn height width hc b nc x).2 := by
  have hiff := clusterTest_iff_colEmpty height hmarks (show x < b.length by omega)
    (colYs hc (x : Int))
  set col' := padTop height (removeYs ((b[x]?).getD []) (colYs hc (x : Int))) with hcol'
  have hbx : ((b[x]?).getD []).length = height := by
    rw [List.getElem?_eq_getElem (show x < b.length by omega)]
    exact hhts _ (List.getElem_mem _)
  have hcol'len : col'.length = height := by
    rw [hcol']
    exact padTop_length (le_trans (removeYs_length_le _ _) (le_of_eq hbx))
  have hset_len : (b.set x col').length = width := by
    rw [List.length_set]
    exact hlen
  have hset_hts : ∀ col ∈ b.set x col', col.length = height := by
    intro col hcol
    rcases List.mem_or_eq_of_mem_set hcol with h | rfl
    · exact hhts col h
    · exact hcol'len
  refine ⟨?_, ?_, rfl⟩
  · intro hemp
    simp only [processColumn]
    rw [← hcol', if_pos (hiff.mpr hemp)]
    dsimp only
    rw [compactFrom_eq_append width height (b.set x col') x hset_len hset_hts hx,
      take_set_self, drop_set_self]
  · intro hemp
    simp only [processColumn]
    rw [← hcol', if_neg (fun hall => hemp (hiff.mp hall))]

theorem c3_compaction_correct_witness :
    ([[{ color := some 0, cluster := [((0 : Int), (0 : Int))] }],
      [{ color := some 1, cluster := [((1 : Int), (0 : Int))] }]] : Board).length = 2 ∧
    (∀ col ∈ ([[{ color := some 0, cluster := [((0 : Int), (0 : Int))] }],
      [{ color := some 1, cluster := [((1 : Int), (0 : Int))] }]] : Board),
      col.length = 1) ∧
    marksConsistent [[{ color := some 0, cluster := [((0 : Int), (0 : Int))] }],
      [{ color := some 1, cluster := [((1 : Int), (0 : Int))] }]] ∧
    ((colEmpty (padTop 1 (removeYs
        ((([[{ color := some 0, cluster := [((0 : Int), (0 : Int))] }],
          [{ color := some 1, cluster := [((1 : Int), (0 : Int))] }]] : Board)[(0 : Nat)]?).getD [])
        (colYs [((0 : Int), (0 : Int))] ((0 : Nat) : Int)))) →
      (processColumn 1 2 [((0 : Int), (0 : Int))]
        [[{ color := some 0, cluster := [((0 : Int), (0 : Int))] }],
          [{ color := some 1, cluster := [((1 : Int), (0 : Int))] }]] 2 0).1 =
        ([[{ color := some 0, cluster := [((0 : Int), (0 : Int))] }],
          [{ color := some 1, cluster := [((1 : Int), (0 : Int))] }]] : Board).take 0 ++
        ([[{ color := some 0, cluster := [((0 : Int), (0 : Int))] }],
          [{ color := some 1, cluster := [((1 : Int), (0 : Int))] }]] : Board).drop 1 ++
        [List.replicate 1 emptyCell]) ∧
    (¬colEmpty (padTop 1 (removeYs
        ((([[{ color := some 0, cluster := [((0 : Int), (0 : Int))] }],
          [{ color := some 1, cluster := [((1 : Int), (0 : Int))] }]] : Board)[(0 : Nat)]?).getD [])
        (colYs [((0 : Int), (0 : Int))] ((0 : Nat) : Int)))) →
      (processColumn 1 2 [((0 : Int), (0 : Int))]
        [[{ color := some 0, cluster := [((0 : Int), (0 : Int))] }],
          [{ color := some 1, cluster := [((1 : Int), (0 : Int))] }]] 2 0).1 =
        ([[{ color := some 0, cluster := [((0 : Int), (0 : Int))] }],
          [{ color := some 1, cluster := [((1 : Int), (0 : Int))] }]] : Board).set 0
          (padTop 1 (removeYs
            ((([[{ color := some 0, cluster := [((0 : Int), (0 : Int))] }],
              [{ color := some 1, cluster := [((1 : Int), (0 : Int))] }]] : Board)[(0 : Nat)]?).getD [])
            (colYs [((0 : Int), (0 : Int))] ((0 : Nat) : Int))))) ∧
    clickCols 1 2 [((0 : Int), (0 : Int))] (0 + 1)
        [[{ color := some 0, cluster := [((0 : Int), (0 : Int))] }],
          [{ color := some 1, cluster := [((1 : Int), (0 : Int))] }]] 2 =
      clickCols 1 2 [((0 : Int), (0 : Int))] 0
        (processColumn 1 2 [((0 : Int), (0 : Int))]
          [[{ color := some 0, cluster := [((0 : Int), (0 : Int))] }],
            [{ color := some 1, cluster := [((1 : Int), (0 : Int))] }]] 2 0).1
        (processColumn 1 2 [((0 : Int), (0 : Int))]
          [[{ color := some 0, cluster := [((0 : Int), (0 : Int))] }],
            [{ color := some 1, cluster := [((1 : Int), (0 : Int))] }]] 2 0).2) :=
  ⟨by decide, by decide, by decide,
    c3_compaction_correct 1 2 [((0 : Int), (0 : Int))]
      [[{ color := some 0, cluster := [((0 : Int), (0 : Int))] }],
        [{ color := some 1, cluster := [((1 : Int), (0 : Int))] }]] 2 0
      (by decide) (by decide) (by decide) (by decide)⟩

/-- C7: preview behaviour.  For every in-bounds coordinate `(x, y)` the hover
handler succeeds and yields the preview size: when the stored cluster at
`(x, y)` has size ≥ 2 the previewed cluster (`hoverCluster`) is set to that
cluster and its size is returned, otherwise the previewed cluster is set to
the empty list and the result is 0 (not over a removable cluster). -/
theorem c7_preview_behavior (s : GameState) (x y : Int)
    (hWF : boardWF s.width s.height s.board)
    (hgrid : inGrid s.width s.height (x, y)) :
    ∃ cell, getCell? s.board x y = some cell ∧
      (2 ≤ cell.cluster.length →
        handleHover s x y =
          .ok ({ s with hoverCluster := cell.cluster }, cell.cluster.length)) ∧
      (cell.cluster.length < 2 →
        handleHover s x y = .ok ({ s with hoverCluster := [] }, 0)) := by
  obtain ⟨cell, hcell⟩ := getCell?_some_of_inGrid hWF hgrid
  refine ⟨cell, hcell, ?_, ?_⟩
  · intro hge
    unfold handleHover
    rw [hcell]
    dsimp only
    rw [if_pos (by omega)]
  · intro hlt
    unfold handleHover
    rw [hcell]
    dsimp only
    rw [if_neg (by omega)]

theorem c7_preview_behavior_witness :
    boardWF (SameGame.init 1 2 1 (fun _ _ => 0)).width
      (SameGame.init 1 2 1 (fun _ _ => 0)).height
      (SameGame.init 1 2 1 (fun _ _ => 0)).board ∧
    inGrid (SameGame.init 1 2 1 (fun _ _ => 0)).width
      (SameGame.init 1 2 1 (fun _ _ => 0)).height ((0 : Int), (0 : Int)) ∧
    (∃ cell, getCell? (SameGame.init 1 2 1 (fun _ _ => 0)).board 0 0 = some cell ∧
      (2 ≤ cell.cluster.length →
        handleHover (SameGame.init 1 2 1 (fun _ _ => 0)) 0 0 =
          .ok ({ SameGame.init 1 2 1 (fun _ _ => 0) with
              hoverCluster := cell.cluster }, cell.cluster.length)) ∧
      (cell.cluster.length < 2 →
        handleHover (SameGame.init 1 2 1 (fun _ _ => 0)) 0 0 =
          .ok ({ SameGame.init 1 2 1 (fun _ _ => 0) with hoverCluster := [] }, 0))) :=
  ⟨by decide, by decide,
    c7_preview_behavior (SameGame.init 1 2 1 (fun _ _ => 0)) 0 0
      (by decide) (by decide)⟩

/-- C4: size conservation.  Removing a stored cluster of size `n` (at least
2, members distinct, in-grid and non-empty) decreases the board's non-empty
cell count by exactly `n` and `numCells` by exactly `n`, and afterwards the
board still has `width` columns of exactly `height` cells each. -/
theorem c4_size_conservation (s : GameState) (x y : Int) (cell : Cell)
    (hWF : boardWF s.width s.height s.board) (hmarks : marksConsistent s.board)
    (hcell : getCell? s.board x y = some cell) (hge : 2 ≤ cell.cluster.length)
    (hnd : cell.cluster.Nodup)
    (hmem : ∀ p ∈ cell.cluster,
      inGrid s.width s.height p ∧ colorAt s.board p ≠ none) :
    ∃ s', selectAt s x y = .ok s' ∧
      nonEmptyCount s'.board + cell.cluster.length = nonEmptyCount s.board ∧
      s'.numCells = s.numCells - cell.cluster.length ∧
      s'.width = s.width ∧ s'.height = s.height ∧
      s'.board.length = s.width ∧ (∀ col ∈ s'.board, col.length = s.height) := by
  obtain ⟨s', hok, hsc, hnc, hsl, hst, hw, hh, hb, hbWF⟩ :=
    selectAt_removal_spec s x y hWF hcell hge
  have hcount := clickCols_count s.height s.width cell.cluster hnd s.width s.board
    s.numCells hWF.1 hWF.2 hmarks (le_refl _) (fun p hp _ => hmem p hp)
  have htot := sumYs_total s.width cell.cluster
    (fun p hp => ⟨(hmem p hp).1.1, (hmem p hp).1.2.1⟩)
  have hinv := clickCols_invariant s.height s.width cell.cluster s.width s.board
    s.numCells hWF.1 hWF.2 hmarks (le_refl _)
    (fun i j hi hij hj _ => absurd (lt_of_le_of_lt (le_trans hi hij) hj)
      (lt_irrefl _))
  have hne : nonEmptyCount s'.board = nonEmptyCount
      (clickCols s.height s.width cell.cluster s.width s.board s.numCells).1 := by
    rw [hb]
    exact nonEmptyCount_updateClusters _ ⟨hinv.1, hinv.2.1⟩
  refine ⟨s', hok, ?_, ?_, hw, hh, ?_, ?_⟩
  · rw [hne, ← htot]
    exact hcount.1
  · rw [hnc, hcount.2, htot]
  · rw [← hw]
    exact hbWF.1
  · intro col hcol
    rw [← hh]
    exact hbWF.2 col hcol

theorem c4_size_conservation_witness :
    boardWF (SameGame.init 1 2 1 (fun _ _ => 0)).width
      (SameGame.init 1 2 1 (fun _ _ => 0)).height
      (SameGame.init 1 2 1 (fun _ _ => 0)).board ∧
    marksConsistent (SameGame.init 1 2 1 (fun _ _ => 0)).board ∧
    getCell? (SameGame.init 1 2 1 (fun _ _ => 0)).board 0 0 =
      some { color := some 0,
             cluster := [((0 : Int), (0 : Int)), ((1 : Int), (0 : Int))] } ∧
    2 ≤ ({ color := some 0,
           cluster := [((0 : Int), (0 : Int)), ((1 : Int), (0 : Int))] } :
           Cell).cluster.length ∧
    ([((0 : Int), (0 : Int)), ((1 : Int), (0 : Int))] : List Pos).Nodup ∧
    (∀ p ∈ ([((0 : Int), (0 : Int)), ((1 : Int), (0 : Int))] : List Pos),
      inGrid (SameGame.init 1 2 1 (fun _ _ => 0)).width
        (SameGame.init 1 2 1 (fun _ _ => 0)).height p ∧
      colorAt (SameGame.init 1 2 1 (fun _ _ => 0)).board p ≠ none) ∧
    (∃ s', selectAt (SameGame.init 1 2 1 (fun _ _ => 0)) 0 0 = .ok s' ∧
      nonEmptyCount s'.board +
        ({ color := some 0,
           cluster := [((0 : Int), (0 : Int)), ((1 : Int), (0 : Int))] } :
           Cell).cluster.length =
        nonEmptyCount (SameGame.init 1 2 1 (fun _ _ => 0)).board ∧
      s'.numCells = (SameGame.init 1 2 1 (fun _ _ => 0)).numCells -
        ({ color := some 0,
           cluster := [((0 : Int), (0 : Int)), ((1 : Int), (0 : Int))] } :
           Cell).cluster.length ∧
      s'.width = (SameGame.init 1 2 1 (fun _ _ => 0)).width ∧
      s'.height = (SameGame.init 1 2 1 (fun _ _ => 0)).height ∧
      s'.board.length = (SameGame.init 1 2 1 (fun _ _ => 0)).width ∧
      (∀ col ∈ s'.board, col.length = (SameGame.init 1 2 1 (fun _ _ => 0)).height)) :=
  ⟨by decide, by decide, by decide, by decide, by decide, by decide,
    c4_size_conservation (SameGame.init 1 2 1 (fun _ _ => 0)) 0 0
      { color := some 0, cluster := [((0 : Int), (0 : Int)), ((1 : Int), (0 : Int))] }
      (by decide) (by decide) (by decide) (by decide) (by decide) (by decide)⟩

theorem clusters_unique {cs : List (List Pos)}
    (hpw : List.Pairwise (fun m1 m2 => ∀ p, p ∈ m1 → p ∉ m2) cs)
    {m1 m2 : List Pos} {p : Pos} (h1 : m1 ∈ cs) (h2 : m2 ∈ cs)
    (hp1 : p ∈ m1) (hp2 : p ∈ m2) : m1 = m2 := by
  by_contra hne
  have hsym : Symmetric (fun m1 m2 : List Pos => ∀ p, p ∈ m1 → p ∉ m2) := by
    intro a b hab q hqb hqa
    exact hab q hqa hqb
  exact hpw.forall hsym h1 h2 hne p hp1 hp2

theorem lookupCluster_of_mem {cs : List (List Pos)}
    (hpw : List.Pairwise (fun m1 m2 => ∀ p, p ∈ m1 → p ∉ m2) cs)
    {m : List Pos} {q : Pos} (hm : m ∈ cs) (hq : q ∈ m) :
    lookupCluster cs q = m := by
  rcases lookupCluster_cases cs q with ⟨he, hnone⟩ | ⟨hmem, hqm⟩
  · exact absurd hq (hnone m hm)
  · exact clusters_unique hpw hmem hm hqm hq

/-- C5: partition invariant of the cluster computation.  For every board:
each in-grid non-empty cell lies in exactly one computed cluster; distinct
clusters are pairwise disjoint; each cluster is exactly the 4-connected
same-color class of any of its members (maximality); clusters contain only
in-grid non-empty cells (empty cells are never explored); stored membership
is symmetric and transitive; and after `updateClusters` a cell's stored
cluster is empty exactly when the cell is empty. -/
theorem c5_partition_invariant (s : GameState) :
    (∀ p : Pos, inGrid s.width s.height p → colorAt s.board p ≠ none →
      ∃! m, m ∈ computeClusters s.width s.height (colorAt s.board) ∧ p ∈ m) ∧
    List.Pairwise (fun m1 m2 => ∀ p, p ∈ m1 → p ∉ m2)
      (computeClusters s.width s.height (colorAt s.board)) ∧
    (∀ m ∈ computeClusters s.width s.height (colorAt s.board), ∀ p ∈ m, ∀ q,
      q ∈ m ↔ sameColorConn s.width s.height (colorAt s.board) p q) ∧
    (∀ m ∈ computeClusters s.width s.height (colorAt s.board), ∀ p ∈ m,
      inGrid s.width s.height p ∧ colorAt s.board p ≠ none) ∧
    (∀ p q : Pos,
      q ∈ lookupCluster (computeClusters s.width s.height (colorAt s.board)) p →
      p ∈ lookupCluster (computeClusters s.width s.height (colorAt s.board)) q) ∧
    (∀ p q r : Pos,
      q ∈ lookupCluster (computeClusters s.width s.height (colorAt s.board)) p →
      r ∈ lookupCluster (computeClusters s.width s.height (colorAt s.board)) q →
      r ∈ lookupCluster (computeClusters s.width s.height (colorAt s.board)) p) ∧
    (∀ x y : Int, inGrid s.width s.height (x, y) →
      (colorAt s.board (x, y) = none ↔
        clusterAt (updateClusters s).board x y = [])) := by
  obtain ⟨spec1, spec2, spec3, spec4, spec5⟩ :=
    computeClusters_spec s.width s.height (colorAt s.board)
  refine ⟨?_, spec4, spec3, spec1, ?_, ?_, ?_⟩
  · intro p hp hc
    obtain ⟨m, hm, hpm⟩ := spec5 p hp hc
    exact ⟨m, ⟨hm, hpm⟩, fun m' hm' => clusters_unique spec4 hm'.1 hm hm'.2 hpm⟩
  · intro p q hq
    rcases lookupCluster_cases (computeClusters s.width s.height (colorAt s.board)) p
      with ⟨he, hnone⟩ | ⟨hmem, hpm⟩
    · rw [he] at hq
      cases hq
    · rw [lookupCluster_of_mem spec4 hmem hq]
      exact hpm
  · intro p q r hq hr
    rcases lookupCluster_cases (computeClusters s.width s.height (colorAt s.board)) p
      with ⟨he, hnone⟩ | ⟨hmem, hpm⟩
    · rw [he] at hq
      cases hq
    · rw [lookupCluster_of_mem spec4 hmem hq] at hr
      exact hr
  · intro x y hxy
    rw [clusterAt_updateClusters s hxy]
    exact (lookupCluster_empty_iff s.width s.height (colorAt s.board) hxy).symm

/-- C6: score update postcondition.  Removing a cluster of size `n` adds
exactly `n²` to `score`, recomputes `scoreLeft = max((50 − cellsRemaining) ·
100, 0)` from the new remaining-cell count, and re-establishes
`scoreTotal = score + scoreLeft`; and across any sequence of `selectAt`
calls from an invariant-satisfying state the score never decreases. -/
theorem c6_score_postcondition (s : GameState) (x y : Int) (cell : Cell)
    (hinv : stateWF s) (hcell : getCell? s.board x y = some cell)
    (hge : 2 ≤ cell.cluster.length) :
    (∃ s', selectAt s x y = .ok s' ∧
      s'.score = s.score + (cell.cluster.length : Int) * cell.cluster.length ∧
      s'.scoreLeft = max ((50 - s'.numCells) * 100) 0 ∧
      s'.scoreTotal = s'.score + s'.scoreLeft) ∧
    (∀ (clicks : List (Int × Int)) (s'' : GameState),
      runClicks s clicks = .ok s'' → s.score ≤ s''.score) := by
  constructor
  · obtain ⟨s', hok, hsc, hnc, hsl, hst, _⟩ :=
      selectAt_removal_spec s x y hinv.1 hcell hge
    exact ⟨s', hok, hsc, hsl, hst⟩
  · intro clicks s'' h
    exact (runClicks_preserves clicks s hinv h).2

theorem c6_score_postcondition_witness :
    stateWF (SameGame.init 1 2 1 (fun _ _ => 0)) ∧
    getCell? (SameGame.init 1 2 1 (fun _ _ => 0)).board 0 0 =
      some { color := some 0,
             cluster := [((0 : Int), (0 : Int)), ((1 : Int), (0 : Int))] } ∧
    2 ≤ ({ color := some 0,
           cluster := [((0 : Int), (0 : Int)), ((1 : Int), (0 : Int))] } :
           Cell).cluster.length ∧
    ((∃ s', selectAt (SameGame.init 1 2 1 (fun _ _ => 0)) 0 0 = .ok s' ∧
        s'.score = (SameGame.init 1 2 1 (fun _ _ => 0)).score +
          (({ color := some 0,
              cluster := [((0 : Int), (0 : Int)), ((1 : Int), (0 : Int))] } :
              Cell).cluster.length : Int) *
            ({ color := some 0,
               cluster := [((0 : Int), (0 : Int)), ((1 : Int), (0 : Int))] } :
               Cell).cluster.length ∧
        s'.scoreLeft = max ((50 - s'.numCells) * 100) 0 ∧
        s'.scoreTotal = s'.score + s'.scoreLeft) ∧
      (∀ (clicks : List (Int × Int)) (s'' : GameState),
        runClicks (SameGame.init 1 2 1 (fun _ _ => 0)) clicks = .ok s'' →
          (SameGame.init 1 2 1 (fun _ _ => 0)).score ≤ s''.score)) :=
  ⟨stateWF_init 1 2 1 (fun _ _ => 0), by decide, by decide,
    c6_score_postcondition (SameGame.init 1 2 1 (fun _ _ => 0)) 0 0
      { color := some 0, cluster := [((0 : Int), (0 : Int)), ((1 : Int), (0 : Int))] }
      (stateWF_init 1 2 1 (fun _ _ => 0)) (by decide) (by decide)⟩

/-- C10: empty-column suffix invariant.  In every state reachable from a
freshly initialised game by any sequence of `selectAt` calls, the fully
empty columns form a contiguous suffix at the right edge of the board: no
column containing a non-empty cell ever lies to the right of a fully empty
column. -/
theorem c10_empty_suffix_invariant (ncolors width height : Nat)
    (rnd : Nat → Nat → Nat) (clicks : List (Int × Int)) (s' : GameState)
    (h : runClicks (SameGame.init ncolors width height rnd) clicks = .ok s') :
    emptySuffix s'.board :=
  ((runClicks_preserves clicks _ (stateWF_init ncolors width height rnd) h).1).2.2

theorem c10_empty_suffix_invariant_witness :
    runClicks (SameGame.init 1 1 2 (fun _ _ => 0)) [((0 : Int), (0 : Int))] =
      .ok { ncolors := 1, width := 1, height := 2,
            board := [[{ color := none, cluster := [] },
                       { color := none, cluster := [] }]],
            hoverCluster := [], score := 4, numCells := 0,
            scoreLeft := 5000, scoreTotal := 5004 } ∧
    emptySuffix ({ ncolors := 1, width := 1, height := 2,
                   board := [[{ color := none, cluster := [] },
                              { color := none, cluster := [] }]],
                   hoverCluster := [], score := 4, numCells := 0,
                   scoreLeft := 5000, scoreTotal := 5004 } : GameState).board :=
  ⟨by decide,
    c10_empty_suffix_invariant 1 1 2 (fun _ _ => 0) [((0 : Int), (0 : Int))]
      { ncolors := 1, width := 1, height := 2,
        board := [[{ color := none, cluster := [] },
                   { color := none, cluster := [] }]],
        hoverCluster := [], score := 4, numCells := 0,
        scoreLeft := 5000, scoreTotal := 5004 }
      (by decide)⟩
